import Mathlib

/-!
Verification development for the travel-advisory pipeline
(`src/travel_advisory/main.py`).

The Python source is shallowly embedded: strings are `String`/`List Char`,
Python `datetime` values are a `DateTime` record compared through an integer
instant key, the `re` patterns used by the source are run by a small
backtracking matcher (`tmatch`/`findAll`) that mirrors Python's leftmost,
greedy/lazy backtracking semantics for the character-class/`+`/`*` constructs
these concrete patterns use, and `dict` is an insertion-ordered association
list.  SHA-256 digests are modelled by the exact byte string the source feeds
to the hasher (equal inputs give equal digests; the counterexamples exhibit
distinct hasher inputs).
-/

/-! ## Python string primitives -/

/-- Codepoints Python's `str`/`\s` treat as whitespace (ASCII controls,
space, NEL, NBSP and the Unicode space separators). -/
def pySpaceNats : List Nat :=
  [9, 10, 11, 12, 13, 28, 29, 30, 31, 32, 133, 160, 5760,
   8192, 8193, 8194, 8195, 8196, 8197, 8198, 8199, 8200, 8201, 8202,
   8232, 8233, 8239, 8287, 12288]

def pyIsSpace (c : Char) : Bool := pySpaceNats.contains c.toNat

/-- `str.lower` (ASCII range; the prohibited-name phrases and every literal
the source compares against are ASCII, so the full Unicode tables are not
modelled). -/
def pyLowerChar (c : Char) : Char :=
  if 65 ≤ c.toNat ∧ c.toNat ≤ 90 then Char.ofNat (c.toNat + 32) else c

/-- `str.upper` (ASCII range, see `pyLowerChar`). -/
def pyUpperChar (c : Char) : Char :=
  if 97 ≤ c.toNat ∧ c.toNat ≤ 122 then Char.ofNat (c.toNat - 32) else c

def pyLowerL (l : List Char) : List Char := l.map pyLowerChar

/-- `str.strip()` on a character list. -/
def pyStripL (l : List Char) : List Char :=
  ((l.dropWhile pyIsSpace).reverse.dropWhile pyIsSpace).reverse

def pyLower (s : String) : String := ⟨pyLowerL s.data⟩
def pyUpper (s : String) : String := ⟨s.data.map pyUpperChar⟩
def pyStrip (s : String) : String := ⟨pyStripL s.data⟩

/-- Python's `needle in hay` substring test. -/
def containsSub : List Char → List Char → Bool
  | needle, hay =>
    if needle.isPrefixOf hay then true
    else
      match hay with
      | [] => false
      | _ :: t => containsSub needle t

/-- `str.replace old new` (all non-overlapping occurrences, left to right);
fuelled by the input length, which bounds the number of steps. -/
def replaceAllL (old new : List Char) : Nat → List Char → List Char
  | _, [] => []
  | 0, l => l
  | fuel + 1, c :: rest =>
    if old ≠ [] ∧ old.isPrefixOf (c :: rest) then
      new ++ replaceAllL old new fuel ((c :: rest).drop old.length)
    else
      c :: replaceAllL old new fuel rest

def pyReplace (s old new : String) : String :=
  ⟨replaceAllL old.data new.data s.data.length s.data⟩

/-! ## Backtracking regex engine

Tokens cover exactly the constructs of the source's patterns: a single
character-class match (also used for case-insensitive literals), greedy `*`,
greedy `+` and lazy `+?` over a character class, the latter three with the
backtracking priority Python's engine uses (greedy tries the longest
feasible repetition first, lazy the shortest). -/

inductive RTok where
  | one (p : Char → Bool) (cap : Option Nat)
  | star (p : Char → Bool)
  | plusG (p : Char → Bool) (cap : Option Nat)
  | plusL (p : Char → Bool) (cap : Option Nat)

abbrev Caps := List (Nat × List Char)

def addCap (cap : Option Nat) (cs : List Char) (r : List Char × Caps) :
    List Char × Caps :=
  match cap with
  | none => r
  | some i => (r.1, (i, cs) :: r.2)

/-- Try candidate repetition counts in the given priority order. -/
def firstSome (f : Nat → Option α) : List Nat → Option α
  | [] => none
  | n :: ns =>
    match f n with
    | some r => some r
    | none => firstSome f ns

/-- `[m, m-1, ..., 0]` — greedy `*` candidate order. -/
def descTo0 : Nat → List Nat
  | 0 => [0]
  | n + 1 => (n + 1) :: descTo0 n

/-- `[m, m-1, ..., 1]` — greedy `+` candidate order. -/
def descTo1 : Nat → List Nat
  | 0 => []
  | n + 1 => (n + 1) :: descTo1 n

/-- `[s, s+1, ..., s+c-1]`. -/
def ascAux : Nat → Nat → List Nat
  | _, 0 => []
  | s, c + 1 => s :: ascAux (s + 1) c

/-- `[1, 2, ..., m]` — lazy `+?` candidate order. -/
def ascFrom1 (m : Nat) : List Nat := ascAux 1 m

/-- Match a token list at the start of `s`; on success return the unconsumed
suffix and the captured groups.  Repetitions only ever consume characters
satisfying their class, so each candidate count is a prefix of the maximal
run, tried in the engine's priority order with full backtracking into the
rest of the pattern. -/
def tmatch : List RTok → List Char → Option (List Char × Caps)
  | [], s => some (s, [])
  | .one p cap :: ts, s =>
    match s with
    | [] => none
    | c :: s' => if p c then (tmatch ts s').map (addCap cap [c]) else none
  | .star p :: ts, s =>
    firstSome (fun n => tmatch ts (s.drop n)) (descTo0 (s.takeWhile p).length)
  | .plusG p cap :: ts, s =>
    firstSome (fun n => (tmatch ts (s.drop n)).map (addCap cap (s.take n)))
      (descTo1 (s.takeWhile p).length)
  | .plusL p cap :: ts, s =>
    firstSome (fun n => (tmatch ts (s.drop n)).map (addCap cap (s.take n)))
      (ascFrom1 (s.takeWhile p).length)

/-- `re.finditer`: scan left to right, yielding non-overlapping matches,
resuming after each match's end. -/
def findAllAux (toks : List RTok) : Nat → List Char → List Caps
  | 0, _ => []
  | fuel + 1, s =>
    match tmatch toks s with
    | some (r, caps) =>
      caps :: findAllAux toks fuel (if r.length < s.length then r else s.drop 1)
    | none =>
      match s with
      | [] => []
      | _ :: t => findAllAux toks fuel t

def findAll (toks : List RTok) (s : List Char) : List Caps :=
  findAllAux toks (s.length + 1) s

def capGet (caps : Caps) (i : Nat) : List Char := (List.lookup i caps).getD []

/-- Case-sensitive literal, as a token list. -/
def litToks (s : String) : List RTok :=
  s.data.map (fun c => RTok.one (fun x => x == c) none)

/-- Case-insensitive literal (for patterns compiled with `re.IGNORECASE`);
`s` is given in lowercase. -/
def litToksCI (s : String) : List RTok :=
  s.data.map (fun c => RTok.one (fun x => pyLowerChar x == c) none)

/-- Python `.` (any character except a newline). -/
def dotP (c : Char) : Bool := c != '\n'

/-- Python `\d` (ASCII range). -/
def digitP (c : Char) : Bool := 48 ≤ c.toNat && c.toNat ≤ 57

/-! ## Timestamps

`datetime` values are embedded as their broken-down fields plus an optional
UTC offset in minutes.  Comparison goes through `DateTime.key`, a mixed-radix
instant (order-isomorphic to Python's `datetime` comparison on the values the
pipeline builds). -/

structure DateTime where
  year : Nat
  month : Nat
  day : Nat
  hour : Nat
  minute : Nat
  second : Nat
  microsecond : Nat
  tzOffsetMinutes : Option Int
deriving DecidableEq

def DateTime.key (d : DateTime) : Int :=
  ((((((d.year : Int) * 13 + d.month) * 32 + d.day) * 24 + d.hour) * 60
      + d.minute) * 60 + d.second) * 1000000 + d.microsecond
    - (d.tzOffsetMinutes.getD 0) * 60000000

def padNat (width n : Nat) : String :=
  let s := toString n
  ⟨List.replicate (width - s.data.length) '0' ++ s.data⟩

def readNatL (l : List Char) : Nat := l.foldl (fun a c => a * 10 + (c.toNat - 48)) 0

def takeDigits (n : Nat) (l : List Char) : Option (Nat × List Char) :=
  let pre := l.take n
  if pre.length = n ∧ pre.all digitP then some (readNatL pre, l.drop n) else none

def isLeapYear (y : Nat) : Bool := (y % 4 == 0 && y % 100 != 0) || y % 400 == 0

def daysInMonth (y m : Nat) : Nat :=
  if m == 2 then (if isLeapYear y then 29 else 28)
  else if m == 4 || m == 6 || m == 9 || m == 11 then 30
  else 31

def parseTzOffset : List Char → Option (Int × List Char)
  | '+' :: r =>
    (takeDigits 2 r).bind fun (h, r1) =>
      match r1 with
      | ':' :: r2 =>
        (takeDigits 2 r2).bind fun (m, r3) =>
          if h < 24 ∧ m < 60 then some (((h * 60 + m : Nat) : Int), r3) else none
      | _ => none
  | '-' :: r =>
    (takeDigits 2 r).bind fun (h, r1) =>
      match r1 with
      | ':' :: r2 =>
        (takeDigits 2 r2).bind fun (m, r3) =>
          if h < 24 ∧ m < 60 then some (-((h * 60 + m : Nat) : Int), r3) else none
      | _ => none
  | _ => none

/-- `datetime.fromisoformat`, modelled for the common
`YYYY-MM-DD[THH:MM[:SS[.ffffff]]][±HH:MM]` shapes the advisory feed emits
(stdlib behaviour outside these shapes is not modelled; the pipeline treats
any failure as "use the current time"). -/
def fromisoformat (s : String) : Option DateTime :=
  (takeDigits 4 s.data).bind fun (y, r0) =>
  match r0 with
  | '-' :: r1 =>
    (takeDigits 2 r1).bind fun (mo, r2) =>
    match r2 with
    | '-' :: r3 =>
      (takeDigits 2 r3).bind fun (d, r4) =>
      if 1 ≤ mo ∧ mo ≤ 12 ∧ 1 ≤ d ∧ d ≤ daysInMonth y mo then
        match r4 with
        | [] => some ⟨y, mo, d, 0, 0, 0, 0, none⟩
        | sep :: r5 =>
          if sep = 'T' ∨ sep = ' ' then
            (takeDigits 2 r5).bind fun (h, r6) =>
            match r6 with
            | ':' :: r7 =>
              (takeDigits 2 r7).bind fun (mi, r8) =>
              if h < 24 ∧ mi < 60 then
                let afterSec : Nat × Nat × List Char :=
                  match r8 with
                  | ':' :: r9 =>
                    match takeDigits 2 r9 with
                    | some (se, r10) =>
                      match r10 with
                      | '.' :: r11 =>
                        (match takeDigits 6 r11 with
                         | some (us, r12) => (se, us, r12)
                         | none => (se, 0, '.' :: r11))
                      | _ => (se, 0, r10)
                    | none => (0, 0, ':' :: r9)
                  | _ => (0, 0, r8)
                let (se, us, r13) := afterSec
                if se < 60 then
                  match r13 with
                  | [] => some ⟨y, mo, d, h, mi, se, us, none⟩
                  | _ =>
                    match parseTzOffset r13 with
                    | some (off, []) => some ⟨y, mo, d, h, mi, se, us, some off⟩
                    | _ => none
                else none
              else none
            | _ => none
          else none
      else none
    | _ => none
  | _ => none

/-- `datetime.isoformat()`. -/
def DateTime.isoformat (d : DateTime) : String :=
  padNat 4 d.year ++ "-" ++ padNat 2 d.month ++ "-" ++ padNat 2 d.day ++ "T"
    ++ padNat 2 d.hour ++ ":" ++ padNat 2 d.minute ++ ":" ++ padNat 2 d.second
    ++ (if d.microsecond ≠ 0 then "." ++ padNat 6 d.microsecond else "")
    ++ (match d.tzOffsetMinutes with
        | none => ""
        | some off =>
          (if off < 0 then "-" else "+")
            ++ padNat 2 (off.natAbs / 60) ++ ":" ++ padNat 2 (off.natAbs % 60))

/-- `f"{dt:%Y-%m-%d}"`. -/
def fmtDate (d : DateTime) : String :=
  padNat 4 d.year ++ "-" ++ padNat 2 d.month ++ "-" ++ padNat 2 d.day

/-! ## Data model -/

structure RegionalWarning where
  region_name : String
  level : Nat
  reasons : String
deriving DecidableEq

structure TravelAdvisory where
  country_name : String
  country_code : String
  overall_level : Nat
  summary : String
  last_updated : DateTime
  link : String
  regional_warnings : List RegionalWarning
deriving DecidableEq

/-- `TravelAdvisory.has_regional_elevation`. -/
def TravelAdvisory.has_regional_elevation (a : TravelAdvisory) : Bool :=
  a.regional_warnings.any (fun w => a.overall_level < w.level)

/-- `TravelAdvisory.max_regional_level`. -/
def TravelAdvisory.max_regional_level (a : TravelAdvisory) : Nat :=
  match a.regional_warnings with
  | [] => a.overall_level
  | ws => (ws.map (fun w => w.level)).foldl Nat.max 0

/-- One raw record from the feed (`raw.get(...)` with the source's defaults;
absent keys are modelled as their default values). -/
structure RawRecord where
  Title : String
  Category : List String
  Summary : String
  Link : String
  Updated : String
deriving DecidableEq

/-- `PROHIBITED_COUNTRY_NAMES`. -/
def PROHIBITED_COUNTRY_NAMES : List String :=
  ["china", "hong kong", "macau", "macao",
   "cuba",
   "iran",
   "north korea", "korea, north", "democratic people\x27s republic of korea",
   "russia", "russian federation",
   "venezuela"]

/-- `is_prohibited_country`: exact lowercase/trimmed membership, else
substring match against any configured prohibited name. -/
def is_prohibited_country (country_name : String) : Bool :=
  let name_lower := pyStrip (pyLower country_name)
  if PROHIBITED_COUNTRY_NAMES.contains name_lower then true
  else PROHIBITED_COUNTRY_NAMES.any
    (fun prohibited => containsSub prohibited.data name_lower.data)

/-! ## `clean_html`

Each `re.sub` of the source is a left-to-right scan replacing leftmost,
non-overlapping matches; the replacement text is not rescanned.  `scanRepl`
is that scan: `step` recognises a match at the current position (consuming at
least one character) or the scan advances by one character. -/

def scanRepl (step : List Char → Option (List Char × List Char)) :
    Nat → List Char → List Char
  | 0, l => l
  | _ + 1, [] => []
  | fuel + 1, c :: rest =>
    match step (c :: rest) with
    | some (out, r) => out ++ scanRepl step fuel r
    | none => c :: scanRepl step fuel rest

/-- `html.unescape`, modelled for the standard named entities the feed uses
(`amp`, `lt`, `gt`, `quot`, `apos`, `#39`, `nbsp`); the full HTML5
named-entity table is not reproduced — no pipeline decision depends on
entity decoding. -/
def entStep (l : List Char) : Option (List Char × List Char) :=
  match l with
  | '&' :: rest =>
    if "amp;".data.isPrefixOf rest then some ("&".data, rest.drop 4)
    else if "lt;".data.isPrefixOf rest then some ("<".data, rest.drop 3)
    else if "gt;".data.isPrefixOf rest then some (">".data, rest.drop 3)
    else if "quot;".data.isPrefixOf rest then some ("\"".data, rest.drop 5)
    else if "apos;".data.isPrefixOf rest then some ("\x27".data, rest.drop 5)
    else if "#39;".data.isPrefixOf rest then some ("\x27".data, rest.drop 4)
    else if "nbsp;".data.isPrefixOf rest then some ("\xa0".data, rest.drop 5)
    else none
  | _ => none

/-- `<br\s*/?>` (IGNORECASE) `→ "\n"`. -/
def brStep (l : List Char) : Option (List Char × List Char) :=
  match l with
  | '<' :: c1 :: c2 :: rest =>
    if pyLowerChar c1 == 'b' && pyLowerChar c2 == 'r' then
      match rest.dropWhile pyIsSpace with
      | '/' :: '>' :: r => some ("\n".data, r)
      | '>' :: r => some ("\n".data, r)
      | _ => none
    else none
  | _ => none

/-- `<p[^>]*>` (IGNORECASE) `→ "\n"`. -/
def pOpenStep (l : List Char) : Option (List Char × List Char) :=
  match l with
  | '<' :: c1 :: rest =>
    if pyLowerChar c1 == 'p' then
      match rest.dropWhile (fun c => c != '>') with
      | '>' :: r => some ("\n".data, r)
      | _ => none
    else none
  | _ => none

/-- `</p>` (IGNORECASE) `→ "\n"`. -/
def pCloseStep (l : List Char) : Option (List Char × List Char) :=
  match l with
  | '<' :: '/' :: c1 :: '>' :: r =>
    if pyLowerChar c1 == 'p' then some ("\n".data, r) else none
  | _ => none

/-- `<li[^>]*>` (IGNORECASE) `→ "\n- "`. -/
def liStep (l : List Char) : Option (List Char × List Char) :=
  match l with
  | '<' :: c1 :: c2 :: rest =>
    if pyLowerChar c1 == 'l' && pyLowerChar c2 == 'i' then
      match rest.dropWhile (fun c => c != '>') with
      | '>' :: r => some ("\n- ".data, r)
      | _ => none
    else none
  | _ => none

/-- `<[^>]+>` `→ ""`. -/
def tagStep (l : List Char) : Option (List Char × List Char) :=
  match l with
  | '<' :: rest =>
    let inner := rest.takeWhile (fun c => c != '>')
    if inner.length = 0 then none
    else
      match rest.drop inner.length with
      | '>' :: r => some ([], r)
      | _ => none
  | _ => none

/-- `\n{3,}` `→ "\n\n"`. -/
def nl3Step (l : List Char) : Option (List Char × List Char) :=
  let run := l.takeWhile (fun c => c == '\n')
  if 3 ≤ run.length then some ("\n\n".data, l.drop run.length) else none

/-- ` +` `→ " "`. -/
def spaceStep (l : List Char) : Option (List Char × List Char) :=
  let run := l.takeWhile (fun c => c == ' ')
  if 1 ≤ run.length then some (" ".data, l.drop run.length) else none

/-- `clean_html`. -/
def clean_html (text : String) : String :=
  let t0 := scanRepl entStep text.data.length text.data
  let t1 := scanRepl brStep t0.length t0
  let t2 := scanRepl pOpenStep t1.length t1
  let t3 := scanRepl pCloseStep t2.length t2
  let t4 := scanRepl liStep t3.length t3
  let t5 := scanRepl tagStep t4.length t4
  let t6 := scanRepl nl3Step t5.length t5
  let t7 := scanRepl spaceStep t6.length t6
  ⟨pyStripL t7⟩

/-! ## `parse_level_from_title` -/

/-- `^(.+?)\s*-\s*Level\s*(\d)` with `re.IGNORECASE`, anchored by `re.match`. -/
def titleToks : List RTok :=
  [RTok.plusL dotP (some 1), RTok.star pyIsSpace,
   RTok.one (fun c => c == '-') none, RTok.star pyIsSpace]
  ++ litToksCI "level"
  ++ [RTok.star pyIsSpace, RTok.one digitP (some 2)]

/-- `parse_level_from_title`. -/
def parse_level_from_title (title : String) : String × Nat :=
  match tmatch titleToks title.data with
  | some (_, caps) =>
    (⟨pyStripL (capGet caps 1)⟩, ((capGet caps 2).headD '0').toNat - 48)
  | none => (title, 0)

/-! ## `extract_regional_warnings` -/

/-- `[Dd]o\s+not\s+travel\s+to[:\s]+(.+?)\s+due\s+to\s+([^.]+)`
(compiled without flags: only the initial letter is case-flexible). -/
def doNotToks : List RTok :=
  [RTok.one (fun c => c == 'D' || c == 'd') none, RTok.one (fun c => c == 'o') none,
   RTok.plusG pyIsSpace none]
  ++ litToks "not" ++ [RTok.plusG pyIsSpace none]
  ++ litToks "travel" ++ [RTok.plusG pyIsSpace none]
  ++ litToks "to"
  ++ [RTok.plusG (fun c => c == ':' || pyIsSpace c) none,
      RTok.plusL dotP (some 1), RTok.plusG pyIsSpace none]
  ++ litToks "due" ++ [RTok.plusG pyIsSpace none]
  ++ litToks "to" ++ [RTok.plusG pyIsSpace none]
  ++ [RTok.plusG (fun c => c != '.') (some 2)]

/-- `[Rr]econsider\s+travel\s+to[:\s]+(.+?)\s+due\s+to\s+([^.]+)`
(also compiled without flags). -/
def reconsiderToks : List RTok :=
  [RTok.one (fun c => c == 'R' || c == 'r') none]
  ++ litToks "econsider" ++ [RTok.plusG pyIsSpace none]
  ++ litToks "travel" ++ [RTok.plusG pyIsSpace none]
  ++ litToks "to"
  ++ [RTok.plusG (fun c => c == ':' || pyIsSpace c) none,
      RTok.plusL dotP (some 1), RTok.plusG pyIsSpace none]
  ++ litToks "due" ++ [RTok.plusG pyIsSpace none]
  ++ litToks "to" ++ [RTok.plusG pyIsSpace none]
  ++ [RTok.plusG (fun c => c != '.') (some 2)]

def skip_phrases : List String := ["country", "nation", "all of", "anywhere", "entire"]

def vague_terms : List String := ["these areas", "this area", "the area", "certain areas"]

/-- One alternative of `re.sub(r'^(the|a|an)\s+', '', region, re.IGNORECASE)`:
drop the case-insensitive word `w` plus the following whitespace run. -/
def dropArticleAlt (w : List Char) (l : List Char) : Option (List Char) :=
  let pre := l.take w.length
  if pre.length = w.length ∧ pyLowerL pre = w then
    let r := l.drop w.length
    let run := r.takeWhile pyIsSpace
    if 1 ≤ run.length then some (r.drop run.length) else none
  else none

/-- `re.sub(r'^(the|a|an)\s+', '', region, flags=re.IGNORECASE)` —
alternatives tried in the pattern's order. -/
def stripArticle (l : List Char) : List Char :=
  match dropArticleAlt "the".data l with
  | some r => r
  | none =>
    match dropArticleAlt "a".data l with
    | some r => r
    | none =>
      match dropArticleAlt "an".data l with
      | some r => r
      | none => l

/-- `re.sub(r'^[-:*]\s*', '', region)`. -/
def stripPunct (l : List Char) : List Char :=
  match l with
  | c :: rest =>
    if c == '-' || c == ':' || c == '*' then rest.dropWhile pyIsSpace else l
  | [] => l

/-- The per-match body shared by both extraction passes: skip-phrase test on
the raw capture, article/punctuation cleanup, vague-term and length tests,
containment dedup, append. -/
def processMatch (lvl : Nat) (warnings : List RegionalWarning) (caps : Caps) :
    List RegionalWarning :=
  let region0 := pyStripL (capGet caps 1)
  let reasons := pyStripL (capGet caps 2)
  if skip_phrases.any (fun p => containsSub p.data (pyLowerL region0)) then warnings
  else
    let region := pyStripL (stripPunct (stripArticle region0))
    if vague_terms.any (fun p => containsSub p.data (pyLowerL region)) then warnings
    else if region.length < 3 ∨ 200 < region.length then warnings
    else if warnings.any
        (fun w => containsSub (pyLowerL region) (pyLowerL w.region_name.data)) then
      warnings
    else warnings ++ [⟨⟨region⟩, lvl, ⟨reasons⟩⟩]

/-- The two scanning passes of `extract_regional_warnings`, run on the
already-cleaned text. -/
def extract_from_text (clean_text : String) (overall_level : Nat) :
    List RegionalWarning :=
  let w1 :=
    if overall_level < 4 then
      (findAll doNotToks clean_text.data).foldl (processMatch 4) []
    else []
  if overall_level < 3 then
    (findAll reconsiderToks clean_text.data).foldl (processMatch 3) w1
  else w1

/-- `extract_regional_warnings`. -/
def extract_regional_warnings (summary : String) (overall_level : Nat) :
    List RegionalWarning :=
  extract_from_text (clean_html summary) overall_level

/-! ## `parse_advisory` -/

/-- `parse_advisory`; `now` stands for `datetime.now()`, used only when the
timestamp fails to parse.  (The body's `try` never fails in the embedding:
every partial access the source guards is total here, so the outer handler
is unreachable.) -/
def parse_advisory (now : DateTime) (raw : RawRecord) : Option TravelAdvisory :=
  let (country_name, overall_level) := parse_level_from_title raw.Title
  if overall_level = 0 ∧ ¬ is_prohibited_country country_name then none
  else
    let country_code := raw.Category.headD ""
    let last_updated := (fromisoformat (pyReplace raw.Updated "Z" "+00:00")).getD now
    let regional_warnings := extract_regional_warnings raw.Summary overall_level
    some ⟨country_name, country_code, overall_level, clean_html raw.Summary,
          last_updated, raw.Link, regional_warnings⟩

/-! ## String ordering (Python string comparison is codepoint-lexicographic) -/

def charCmp (a b : Char) : Ordering :=
  if a < b then .lt else if b < a then .gt else .eq

def lexCmp : List Char → List Char → Ordering
  | [], [] => .eq
  | [], _ :: _ => .lt
  | _ :: _, [] => .gt
  | a :: as_, b :: bs =>
    match charCmp a b with
    | .eq => lexCmp as_ bs
    | o => o

def strLe (a b : List Char) : Prop := lexCmp a b ≠ Ordering.gt

instance (a b : List Char) : Decidable (strLe a b) := by
  unfold strLe; infer_instance

/-! ## `deduplicate_advisories`

Python's insertion-ordered `dict` is an association list: `dictSet` replaces
in place (keeping first-insertion position) or appends a new key at the end;
`lookupD` finds the entry for a key. -/

abbrev ADict := List (String × TravelAdvisory)

def lookupD (d : ADict) (k : String) : Option TravelAdvisory :=
  (d.find? (fun e => e.1 == k)).map (fun e => e.2)

def dictSet (d : ADict) (k : String) (v : TravelAdvisory) : ADict :=
  match d with
  | [] => [(k, v)]
  | e :: rest => if e.1 == k then (k, v) :: rest else e :: dictSet rest k v

/-- The dedup identity key:
`adv.country_code.upper() if adv.country_code else adv.country_name.lower().strip()`. -/
def identityKey (a : TravelAdvisory) : String :=
  if a.country_code ≠ "" then pyUpper a.country_code
  else pyStrip (pyLower a.country_name)

def dropMsg (dropped kept : TravelAdvisory) : String :=
  "Dropped \x27" ++ dropped.country_name ++ "\x27 (code=" ++ dropped.country_code
    ++ ", updated=" ++ fmtDate dropped.last_updated ++ ") in favor of \x27"
    ++ kept.country_name ++ "\x27 (updated=" ++ fmtDate kept.last_updated ++ ")"

/-- One iteration of the dedup loop.  Note the strict comparison
`adv.last_updated > existing.last_updated`: at equal timestamps the
already-seen entry is kept. -/
def dedupStep (st : ADict × List String) (adv : TravelAdvisory) :
    ADict × List String :=
  let key := identityKey adv
  match lookupD st.1 key with
  | some existing =>
    if existing.last_updated.key < adv.last_updated.key then
      (dictSet st.1 key adv, st.2 ++ [dropMsg existing adv])
    else
      (st.1, st.2 ++ [dropMsg adv existing])
  | none => (dictSet st.1 key adv, st.2)

/-- `deduplicate_advisories`. -/
def deduplicate_advisories (advisories : List TravelAdvisory) :
    List TravelAdvisory × List String :=
  let st := advisories.foldl dedupStep ([], [])
  (st.1.map (fun e => e.2), st.2)

/-! ## `filter_high_risk` -/

/-- One iteration of the classification loop: prohibited first, then overall
level ≥ 3, then qualifying regional elevation; otherwise dropped. -/
def classifyStep (acc : List TravelAdvisory × List TravelAdvisory)
    (advisory : TravelAdvisory) : List TravelAdvisory × List TravelAdvisory :=
  if is_prohibited_country advisory.country_name then
    (acc.1 ++ [advisory], acc.2)
  else if 3 ≤ advisory.overall_level then
    (acc.1, acc.2 ++ [advisory])
  else if advisory.has_regional_elevation ∧ 3 ≤ advisory.max_regional_level then
    (acc.1, acc.2 ++ [advisory])
  else acc

/-- `prohibited.sort(key=lambda a: a.country_name)`. -/
def prohRel (a b : TravelAdvisory) : Prop :=
  strLe a.country_name.data b.country_name.data

/-- `high_risk.sort(key=lambda a: (-a.overall_level, -a.max_regional_level,
a.country_name))` — the tuple order spelled out. -/
def hrRel (a b : TravelAdvisory) : Prop :=
  b.overall_level < a.overall_level
  ∨ (a.overall_level = b.overall_level
     ∧ (b.max_regional_level < a.max_regional_level
        ∨ (a.max_regional_level = b.max_regional_level
           ∧ strLe a.country_name.data b.country_name.data)))

instance : DecidableRel prohRel := fun _ _ => by unfold prohRel; infer_instance

instance : DecidableRel hrRel := fun _ _ => by unfold hrRel; infer_instance

/-- `filter_high_risk` (Python's stable `list.sort` is modelled by insertion
sort over the same key order; on a total preorder every stable sort computes
the same list). -/
def filter_high_risk (advisories : List TravelAdvisory) :
    List TravelAdvisory × List TravelAdvisory :=
  let acc := advisories.foldl classifyStep ([], [])
  (List.insertionSort prohRel acc.1, List.insertionSort hrRel acc.2)

/-! ## Verification engine -/

/-- The sort key of `compute_data_hash`: `a.country_code or a.country_name`. -/
def hashKey (a : TravelAdvisory) : String :=
  if a.country_code ≠ "" then a.country_code else a.country_name

def hashRel (a b : TravelAdvisory) : Prop := strLe (hashKey a).data (hashKey b).data

instance : DecidableRel hashRel := fun _ _ => by unfold hashRel; infer_instance

/-- The per-advisory record fed to the hasher. -/
def hashLine (a : TravelAdvisory) : String :=
  a.country_code ++ "|" ++ a.country_name ++ "|" ++ toString a.overall_level
    ++ "|" ++ a.last_updated.isoformat

/-- `VerificationReport.compute_data_hash`, modelled as the byte string fed
to SHA-256 (two runs produce the same digest iff they feed the same bytes,
up to hash collisions). -/
def compute_data_hash (advisories : List TravelAdvisory) : String :=
  String.join ((List.insertionSort hashRel advisories).map hashLine)

/-- Assertion 1 of `run_assertions` (no-leak). -/
def leakErrors (high_risk : List TravelAdvisory) : List String :=
  (high_risk.filter (fun adv => is_prohibited_country adv.country_name)).map
    (fun adv => "LEAK: Prohibited country \x27" ++ adv.country_name
      ++ "\x27 found in high-risk list")

/-- Assertion 2 of `run_assertions` (parse-failure rate).  The float
comparison `parse_failures / raw_count >= 0.05` is modelled as the exact
rational comparison. -/
def parseFailureErrors (raw_count parse_failures : Nat) : List String :=
  if 0 < raw_count then
    if (5 : ℚ) / 100 ≤ (parse_failures : ℚ) / (raw_count : ℚ) then
      ["PARSE FAILURES: " ++ toString parse_failures ++ "/" ++ toString raw_count
        ++ " exceeds 5% threshold"]
    else []
  else []

/-- Assertion 3 of `run_assertions` (non-empty high-risk output). -/
def sanityErrors (high_risk : List TravelAdvisory) : List String :=
  if high_risk.length = 0 then ["SANITY: Zero high-risk countries found"] else []

/-- Assertion 4 of `run_assertions` (duplicate non-empty country codes),
with the `seen_codes` set as a list. -/
def duplicateCodeErrors (all_advisories : List TravelAdvisory) : List String :=
  let codes := (all_advisories.filter (fun a => a.country_code ≠ "")).map
    (fun a => a.country_code)
  (codes.foldl
    (fun (st : List String × List String) code =>
      ((if code ∈ st.1 then st.1 else st.1 ++ [code]),
       (if code ∈ st.1 then
          st.2 ++ ["DUPLICATE: Country code \x27" ++ code
            ++ "\x27 appears more than once"]
        else st.2)))
    ([], [])).2

/-- `VerificationReport.run_assertions`: the accumulated error list (the
method returns `errors = []`). -/
def run_assertions (raw_count parse_failures : Nat)
    (prohibited high_risk : List TravelAdvisory) : List String :=
  leakErrors high_risk ++ parseFailureErrors raw_count parse_failures
    ++ sanityErrors high_risk ++ duplicateCodeErrors (prohibited ++ high_risk)

/-! ## The pipeline, parse through fingerprint (`main`'s data path) -/

def pipelineFingerprint (now : DateTime) (raw_data : List RawRecord) : String :=
  let advisories := raw_data.filterMap (parse_advisory now)
  let deduped := (deduplicate_advisories advisories).1
  let pr := filter_high_risk deduped
  compute_data_hash (pr.1 ++ pr.2)

/-! ## Lemmas: substring containment -/

theorem containsSub_iff_within (n h : List Char) :
    containsSub n h = true ↔ n <:+: h := by
  induction h with
  | nil =>
    rw [containsSub]
    constructor
    · intro hc
      by_cases hp : n.isPrefixOf ([] : List Char)
      · exact (List.isPrefixOf_iff_prefix.mp hp).isInfix
      · simp [hp] at hc
    · intro hi
      have : n = [] := List.sublist_nil.mp hi.sublist
      simp [this, List.isPrefixOf]
  | cons c t ih =>
    rw [containsSub]
    constructor
    · intro hc
      by_cases hp : n.isPrefixOf (c :: t)
      · exact (List.isPrefixOf_iff_prefix.mp hp).isInfix
      · simp only [hp, if_false] at hc
        exact (ih.mp hc).trans (List.suffix_cons c t).isInfix
    · intro hi
      rcases List.infix_cons_iff.mp hi with hpre | hinf
      · simp [List.isPrefixOf_iff_prefix.mpr hpre]
      · by_cases hp : n.isPrefixOf (c :: t)
        · simp [hp]
        · simpa [hp] using ih.mpr hinf

theorem containsSub_mono {n h h' : List Char} (hc : containsSub n h = true)
    (hh : h <:+: h') : containsSub n h' = true :=
  (containsSub_iff_within n h').mpr (((containsSub_iff_within n h).mp hc).trans hh)

theorem pyStripL_within (l : List Char) : pyStripL l <:+: l := by
  unfold pyStripL
  have h1 : l.dropWhile pyIsSpace <:+ l := List.dropWhile_suffix pyIsSpace
  have h2 : (l.dropWhile pyIsSpace).reverse.dropWhile pyIsSpace <:+
      (l.dropWhile pyIsSpace).reverse := List.dropWhile_suffix pyIsSpace
  have h3 : ((l.dropWhile pyIsSpace).reverse.dropWhile pyIsSpace).reverse <+:
      l.dropWhile pyIsSpace := by
    have := List.reverse_prefix.mpr h2
    simpa using this
  exact h3.isInfix.trans h1.isInfix

theorem dropArticleAlt_suffix {w l r : List Char} (h : dropArticleAlt w l = some r) :
    r <:+ l := by
  unfold dropArticleAlt at h
  dsimp only at h
  split at h
  · split at h
    · simp only [Option.some.injEq] at h
      subst h
      exact (List.drop_suffix _ _).trans (List.drop_suffix _ _)
    · exact absurd h (by simp)
  · exact absurd h (by simp)

theorem stripArticle_suffix (l : List Char) : stripArticle l <:+ l := by
  unfold stripArticle
  rcases h1 : dropArticleAlt "the".data l with _ | r1
  · rcases h2 : dropArticleAlt "a".data l with _ | r2
    · rcases h3 : dropArticleAlt "an".data l with _ | r3
      · exact List.suffix_refl l
      · exact dropArticleAlt_suffix h3
    · exact dropArticleAlt_suffix h2
  · exact dropArticleAlt_suffix h1

theorem stripPunct_suffix (l : List Char) : stripPunct l <:+ l := by
  unfold stripPunct
  match l with
  | [] => exact List.suffix_refl _
  | c :: rest =>
    by_cases hc : (c == '-' || c == ':' || c == '*') = true
    · simp only [hc, if_true]
      exact (List.dropWhile_suffix pyIsSpace).trans (List.suffix_cons c rest)
    · simp only [hc, if_false]
      exact List.suffix_refl _

/-- The cleaned region the extractor stores is an infix of the raw capture
that passed the skip-phrase test. -/
theorem cleaned_region_within (region0 : List Char) :
    pyStripL (stripPunct (stripArticle region0)) <:+: region0 :=
  (pyStripL_within _).trans
    ((stripPunct_suffix _).isInfix.trans (stripArticle_suffix region0).isInfix)

theorem pyLowerL_within {x y : List Char} (h : x <:+: y) :
    pyLowerL x <:+: pyLowerL y := h.map pyLowerChar

/-! ## Lemmas: the extractor only emits well-formed warnings -/

/-- The shape every warning accepted by `processMatch` has. -/
def GoodRegion (w : RegionalWarning) : Prop :=
  3 ≤ w.region_name.length ∧ w.region_name.length ≤ 200
  ∧ (∀ p ∈ skip_phrases, containsSub p.data (pyLowerL w.region_name.data) = false)
  ∧ (∀ p ∈ vague_terms, containsSub p.data (pyLowerL w.region_name.data) = false)

theorem processMatch_mem {lvl : Nat} {warnings : List RegionalWarning} {caps : Caps}
    {w : RegionalWarning} (hw : w ∈ processMatch lvl warnings caps) :
    w ∈ warnings ∨ (w.level = lvl ∧ GoodRegion w) := by
  unfold processMatch at hw
  dsimp only at hw
  split at hw
  · exact Or.inl hw
  · next hskip =>
    split at hw
    · exact Or.inl hw
    · next hvague =>
      split at hw
      · exact Or.inl hw
      · next hlen =>
        split at hw
        · exact Or.inl hw
        · rcases List.mem_append.mp hw with h | h
          · exact Or.inl h
          · have hEq : w = ⟨⟨pyStripL (stripPunct (stripArticle (pyStripL (capGet caps 1))))⟩,
                lvl, ⟨pyStripL (capGet caps 2)⟩⟩ := by simpa using h
            subst hEq
            refine Or.inr ⟨rfl, ?_, ?_, ?_, ?_⟩
            · simpa [String.length] using (by omega :
                3 ≤ (pyStripL (stripPunct (stripArticle (pyStripL (capGet caps 1))))).length ∨
                  (pyStripL (stripPunct (stripArticle (pyStripL (capGet caps 1))))).length < 3
                ).resolve_right (fun hlt => hlen (Or.inl hlt))
            · simpa [String.length] using (by omega :
                (pyStripL (stripPunct (stripArticle (pyStripL (capGet caps 1))))).length ≤ 200 ∨
                  200 < (pyStripL (stripPunct (stripArticle (pyStripL (capGet caps 1))))).length
                ).resolve_right (fun hlt => hlen (Or.inr hlt))
            · intro p hp
              by_contra hcon
              have hsub : containsSub p.data
                  (pyLowerL (pyStripL (stripPunct (stripArticle (pyStripL (capGet caps 1)))))) = true := by
                revert hcon
                cases containsSub p.data
                  (pyLowerL (pyStripL (stripPunct (stripArticle (pyStripL (capGet caps 1)))))) <;> simp
              have : containsSub p.data (pyLowerL (pyStripL (capGet caps 1))) = true :=
                containsSub_mono hsub (pyLowerL_within (cleaned_region_within _))
              exact hskip (List.any_eq_true.mpr ⟨p, hp, this⟩)
            · intro p hp
              by_contra hcon
              have hsub : containsSub p.data
                  (pyLowerL (pyStripL (stripPunct (stripArticle (pyStripL (capGet caps 1)))))) = true := by
                revert hcon
                cases containsSub p.data
                  (pyLowerL (pyStripL (stripPunct (stripArticle (pyStripL (capGet caps 1)))))) <;> simp
              exact hvague (List.any_eq_true.mpr ⟨p, hp, hsub⟩)

theorem foldl_processMatch_mem {lvl : Nat} {ms : List Caps}
    {init : List RegionalWarning} {w : RegionalWarning}
    (hw : w ∈ ms.foldl (processMatch lvl) init) :
    w ∈ init ∨ (w.level = lvl ∧ GoodRegion w) := by
  induction ms generalizing init with
  | nil => exact Or.inl hw
  | cons m ms ih =>
    rcases @ih (processMatch lvl init m) hw with h | h
    · exact processMatch_mem h
    · exact Or.inr h

theorem extract_from_text_mem {text : String} {overall : Nat} {w : RegionalWarning}
    (hw : w ∈ extract_from_text text overall) :
    (w.level = 3 ∨ w.level = 4) ∧ GoodRegion w := by
  unfold extract_from_text at hw
  dsimp only at hw
  have h1 : ∀ v : RegionalWarning,
      v ∈ (if overall < 4 then
            (findAll doNotToks text.data).foldl (processMatch 4) []
          else []) → v.level = 4 ∧ GoodRegion v := by
    intro v hv
    split at hv
    · rcases foldl_processMatch_mem hv with h | h
      · simp at h
      · exact h
    · simp at hv
  split at hw
  · rcases foldl_processMatch_mem hw with h | h
    · exact ⟨Or.inr (h1 w h).1, (h1 w h).2⟩
    · exact ⟨Or.inl h.1, h.2⟩
  · exact ⟨Or.inr (h1 w hw).1, (h1 w hw).2⟩

/-- C7: every `RegionalWarning` the extractor emits has level exactly 3 or 4,
a cleaned region name of length 3–200, and a region name containing (case-
insensitively) no country-wide qualifier and no vague-reference phrase; in
particular a region phrase containing "entire country" is never emitted,
regardless of level. -/
theorem regional_warning_wellformed (summary : String) (overall_level : Nat)
    (w : RegionalWarning)
    (hw : w ∈ extract_regional_warnings summary overall_level) :
    (w.level = 3 ∨ w.level = 4)
    ∧ 3 ≤ w.region_name.length ∧ w.region_name.length ≤ 200
    ∧ (∀ p ∈ skip_phrases, containsSub p.data (pyLowerL w.region_name.data) = false)
    ∧ (∀ p ∈ vague_terms, containsSub p.data (pyLowerL w.region_name.data) = false)
    ∧ containsSub "entire country".data (pyLowerL w.region_name.data) = false := by
  have h := extract_from_text_mem hw
  obtain ⟨hlvl, hlen1, hlen2, hskip, hvague⟩ := h
  refine ⟨hlvl, hlen1, hlen2, hskip, hvague, ?_⟩
  by_contra hcon
  have hec : containsSub "entire country".data (pyLowerL w.region_name.data) = true := by
    revert hcon
    cases containsSub "entire country".data (pyLowerL w.region_name.data) <;> simp
  have hpre : "entire".data <+: "entire country".data := by decide
  have : containsSub "entire".data (pyLowerL w.region_name.data) = true :=
    containsSub_mono ((containsSub_iff_within _ _).mpr hpre.isInfix) <|
      (containsSub_iff_within _ _).mp hec
  have hfalse := hskip "entire" (by decide)
  rw [this] at hfalse
  exact absurd hfalse (by simp)

/-! ## C4: parse-failure-rate boundary -/

/-- C4: the parse-failure assertion fails exactly when
`parse_failures / raw_count ≥ 5%`; 5 failures out of 100 raw records fail it,
a rate strictly below 5% passes (`20·failures < raw_count`), and a zero raw
count skips the check entirely. -/
theorem parse_failure_threshold :
    (∀ raw_count parse_failures : Nat, 0 < raw_count →
      (parseFailureErrors raw_count parse_failures ≠ [] ↔
        (5 : ℚ) / 100 ≤ (parse_failures : ℚ) / (raw_count : ℚ)))
    ∧ parseFailureErrors 100 5 ≠ []
    ∧ (∀ raw_count parse_failures : Nat, 20 * parse_failures < raw_count →
        parseFailureErrors raw_count parse_failures = [])
    ∧ (∀ parse_failures : Nat, parseFailureErrors 0 parse_failures = []) := by
  have hchar : ∀ raw_count parse_failures : Nat, 0 < raw_count →
      (parseFailureErrors raw_count parse_failures ≠ [] ↔
        (5 : ℚ) / 100 ≤ (parse_failures : ℚ) / (raw_count : ℚ)) := by
    intro r f hr
    unfold parseFailureErrors
    simp only [hr, if_true]
    split
    · next hge => simpa using hge
    · next hlt => simpa using hlt
  refine ⟨hchar, ?_, ?_, ?_⟩
  · exact (hchar 100 5 (by norm_num)).mpr (by norm_num)
  · intro r f hlt
    have hr : 0 < r := by omega
    by_contra hne
    have := (hchar r f hr).mp hne
    have hlt' : (f : ℚ) / (r : ℚ) < 5 / 100 := by
      rw [div_lt_div_iff₀ (by exact_mod_cast hr) (by norm_num)]
      have : (20 : ℚ) * (f : ℚ) < (r : ℚ) := by exact_mod_cast hlt
      linarith
    linarith
  · intro f
    unfold parseFailureErrors
    simp

/-- Witness for C4: the characterization applied at the 5-of-100 boundary and
a below-threshold Nat instance. -/
theorem parse_failure_threshold_instance :
    (parseFailureErrors 100 5 ≠ [] ↔
      (5 : ℚ) / 100 ≤ ((5 : Nat) : ℚ) / ((100 : Nat) : ℚ))
    ∧ parseFailureErrors 100 4 = []
    ∧ parseFailureErrors 0 7 = [] :=
  ⟨parse_failure_threshold.1 100 5 (by decide),
   parse_failure_threshold.2.2.1 100 4 (by decide),
   parse_failure_threshold.2.2.2 7⟩

/-! ## Lemmas: the classification loop as two filters -/

/-- The classifier's routing test for the prohibited sequence. -/
def prohB (a : TravelAdvisory) : Bool := is_prohibited_country a.country_name

/-- The classifier's routing test for the high-risk sequence. -/
def hrB (a : TravelAdvisory) : Bool :=
  !prohB a && (decide (3 ≤ a.overall_level)
    || (a.has_regional_elevation && decide (3 ≤ a.max_regional_level)))

theorem classify_foldl (l : List TravelAdvisory) (p0 h0 : List TravelAdvisory) :
    l.foldl classifyStep (p0, h0) = (p0 ++ l.filter prohB, h0 ++ l.filter hrB) := by
  induction l generalizing p0 h0 with
  | nil => simp
  | cons a t ih =>
    rw [List.foldl_cons]
    by_cases hp : is_prohibited_country a.country_name
    · have hpB : prohB a = true := by simpa [prohB] using hp
      have hhrB : hrB a = false := by simp [hrB, hpB]
      have hstep : classifyStep (p0, h0) a = (p0 ++ [a], h0) := by
        unfold classifyStep
        simp [hp]
      rw [hstep, ih]
      simp [List.filter_cons, hpB, hhrB]
    · have hpB : prohB a = false := by simpa [prohB] using hp
      by_cases h3 : 3 ≤ a.overall_level
      · have hhrB : hrB a = true := by simp [hrB, hpB, h3]
        have hstep : classifyStep (p0, h0) a = (p0, h0 ++ [a]) := by
          unfold classifyStep
          simp [hp, h3]
        rw [hstep, ih]
        simp [List.filter_cons, hpB, hhrB]
      · by_cases hreg : (a.has_regional_elevation : Prop) ∧ 3 ≤ a.max_regional_level
        · have hhrB : hrB a = true := by simp [hrB, hpB, h3, hreg.1, hreg.2]
          have hstep : classifyStep (p0, h0) a = (p0, h0 ++ [a]) := by
            unfold classifyStep
            simp [hp, h3, hreg]
          rw [hstep, ih]
          simp [List.filter_cons, hpB, hhrB]
        · have hhrB : hrB a = false := by
            unfold hrB
            by_cases he : a.has_regional_elevation = true
            · simp [hpB, he, h3]
              exact Nat.lt_of_not_le (fun h => hreg ⟨he, h⟩)
            · simp only [Bool.not_eq_true] at he
              simp [hpB, he, h3]
          have hstep : classifyStep (p0, h0) a = (p0, h0) := by
            unfold classifyStep
            simp [hp, h3, hreg]
          rw [hstep, ih]
          simp [List.filter_cons, hpB, hhrB]

theorem filter_high_risk_eq (l : List TravelAdvisory) :
    filter_high_risk l =
      (List.insertionSort prohRel (l.filter prohB),
       List.insertionSort hrRel (l.filter hrB)) := by
  unfold filter_high_risk
  rw [classify_foldl]
  simp

theorem mem_high_risk_iff {l : List TravelAdvisory} {a : TravelAdvisory} :
    a ∈ (filter_high_risk l).2 ↔ a ∈ l.filter hrB := by
  rw [filter_high_risk_eq]
  exact (List.perm_insertionSort hrRel _).mem_iff

theorem mem_prohibited_iff {l : List TravelAdvisory} {a : TravelAdvisory} :
    a ∈ (filter_high_risk l).1 ↔ a ∈ l.filter prohB := by
  rw [filter_high_risk_eq]
  exact (List.perm_insertionSort prohRel _).mem_iff

theorem hrB_not_prohibited {a : TravelAdvisory} (h : hrB a = true) :
    is_prohibited_country a.country_name = false := by
  unfold hrB prohB at h
  cases hip : is_prohibited_country a.country_name
  · rfl
  · rw [hip] at h
    simp at h

/-! ## C1: the no-leak invariant -/

/-- C1: no advisory in the classifier's high-risk output satisfies the
prohibited-country predicate, so the no-leak assertion of the verification
engine reports no violation on the classifier's own output, and every
prohibited-named advisory (of any level, in particular level 4) is routed to
the prohibited sequence only. -/
theorem classifier_no_leak (advisories : List TravelAdvisory) :
    (∀ a ∈ (filter_high_risk advisories).2,
      is_prohibited_country a.country_name = false)
    ∧ leakErrors (filter_high_risk advisories).2 = []
    ∧ (∀ a ∈ advisories, is_prohibited_country a.country_name = true →
        a ∈ (filter_high_risk advisories).1 ∧ a ∉ (filter_high_risk advisories).2) := by
  have hmem : ∀ a ∈ (filter_high_risk advisories).2,
      is_prohibited_country a.country_name = false := by
    intro a ha
    exact hrB_not_prohibited (List.of_mem_filter (mem_high_risk_iff.mp ha))
  refine ⟨hmem, ?_, ?_⟩
  · unfold leakErrors
    have : (filter_high_risk advisories).2.filter
        (fun adv => is_prohibited_country adv.country_name) = [] := by
      rw [List.filter_eq_nil_iff]
      intro a ha
      simp [hmem a ha]
    rw [this]
    simp
  · intro a ha hp
    constructor
    · exact mem_prohibited_iff.mpr (List.mem_filter.mpr ⟨ha, by simpa [prohB] using hp⟩)
    · intro hcon
      have := hmem a hcon
      rw [hp] at this
      exact absurd this (by simp)

def dtFix : DateTime := ⟨2024, 1, 2, 3, 4, 5, 0, none⟩

/-- A prohibited-named record with overall level 4 (the spec's fixture). -/
def advRussia : TravelAdvisory := ⟨"Russia", "RU", 4, "", dtFix, "", []⟩

/-- Witness for C1: the level-4 prohibited fixture goes to the prohibited
sequence only. -/
theorem classifier_no_leak_instance :
    advRussia ∈ (filter_high_risk [advRussia]).1
    ∧ advRussia ∉ (filter_high_risk [advRussia]).2 :=
  (classifier_no_leak [advRussia]).2.2 advRussia (by decide) (by decide)

/-! ## Lemmas: the lexicographic string order -/

theorem charCmp_eq_iff {a b : Char} : charCmp a b = .eq ↔ a = b := by
  unfold charCmp
  by_cases h1 : a < b
  · simp only [h1, if_true]
    constructor
    · intro h
      exact absurd h (by simp)
    · intro h
      exact absurd (h ▸ h1) (lt_irrefl b)
  · by_cases h2 : b < a
    · simp only [h1, h2, if_false, if_true]
      constructor
      · intro h
        exact absurd h (by simp)
      · intro h
        exact absurd (h ▸ h2) (lt_irrefl b)
    · simp only [h1, h2, if_false]
      simp [le_antisymm (le_of_not_lt h2) (le_of_not_lt h1)]

theorem charCmp_swap (a b : Char) : charCmp b a = (charCmp a b).swap := by
  unfold charCmp
  rcases lt_trichotomy a b with h | h | h
  · simp [h, asymm h, ne_of_gt h, Ordering.swap]
  · simp [h, lt_irrefl b, Ordering.swap]
  · simp [h, asymm h, Ordering.swap]

theorem charCmp_lt_iff {a b : Char} : charCmp a b = .lt ↔ a < b := by
  unfold charCmp
  split
  · next h => simp [h]
  · split
    · next h1 _ => simp [h1]
    · next h1 _ => simp [h1]

theorem charCmp_lt_trans {a b c : Char} (h1 : charCmp a b = .lt)
    (h2 : charCmp b c = .lt) : charCmp a c = .lt := by
  rw [charCmp_lt_iff] at *
  exact lt_trans h1 h2

theorem lexCmp_eq_iff : ∀ {a b : List Char}, lexCmp a b = .eq ↔ a = b := by
  intro a
  induction a with
  | nil =>
    intro b
    cases b <;> simp [lexCmp]
  | cons x xs ih =>
    intro b
    cases b with
    | nil => simp [lexCmp]
    | cons y ys =>
      rw [lexCmp]
      rcases hc : charCmp x y with _ | _ | _
      · simp only []
        constructor
        · intro h
          exact absurd h (by simp)
        · intro h
          obtain ⟨h1, h2⟩ := List.cons.inj h
          rw [h1] at hc
          rw [charCmp_eq_iff.mpr rfl] at hc
          exact absurd hc (by simp)
      · simp only []
        constructor
        · intro h
          have hx := charCmp_eq_iff.mp hc
          have hxs := ih.mp h
          rw [hx, hxs]
        · intro h
          obtain ⟨h1, h2⟩ := List.cons.inj h
          exact ih.mpr h2
      · simp only []
        constructor
        · intro h
          exact absurd h (by simp)
        · intro h
          obtain ⟨h1, h2⟩ := List.cons.inj h
          rw [h1] at hc
          rw [charCmp_eq_iff.mpr rfl] at hc
          exact absurd hc (by simp)

theorem lexCmp_swap : ∀ (a b : List Char), lexCmp b a = (lexCmp a b).swap := by
  intro a
  induction a with
  | nil =>
    intro b
    cases b <;> simp [lexCmp, Ordering.swap]
  | cons x xs ih =>
    intro b
    cases b with
    | nil => simp [lexCmp, Ordering.swap]
    | cons y ys =>
      rw [lexCmp, lexCmp, charCmp_swap]
      rcases hc : charCmp x y with _ | _ | _ <;>
        simp [Ordering.swap, ih ys]

theorem lexCmp_lt_trans : ∀ {a b c : List Char}, lexCmp a b = .lt →
    lexCmp b c = .lt → lexCmp a c = .lt := by
  intro a
  induction a with
  | nil =>
    intro b c h1 h2
    cases c with
    | nil =>
      cases b with
      | nil => simp [lexCmp] at h1
      | cons y ys => simp [lexCmp] at h2
    | cons z zs => simp [lexCmp]
  | cons x xs ih =>
    intro b c h1 h2
    cases b with
    | nil => simp [lexCmp] at h1
    | cons y ys =>
      cases c with
      | nil => simp [lexCmp] at h2
      | cons z zs =>
        rw [lexCmp] at h1 h2 ⊢
        rcases hxy : charCmp x y with _ | _ | _
        · rcases hyz : charCmp y z with _ | _ | _
          · have hxz := charCmp_lt_trans hxy hyz
            simp [hxz]
          · have hyz' : y = z := charCmp_eq_iff.mp hyz
            subst hyz'
            simp [hxy]
          · simp [hyz] at h2
        · have hxy' : x = y := charCmp_eq_iff.mp hxy
          subst hxy'
          rcases hyz : charCmp x z with _ | _ | _
          · simp
          · simp only [hyz] at h2 ⊢
            simp only [hxy] at h1
            exact ih h1 h2
          · simp [hyz] at h2
        · simp [hxy] at h1

theorem strLe_total (a b : List Char) : strLe a b ∨ strLe b a := by
  unfold strLe
  rcases h : lexCmp a b with _ | _ | _
  · exact Or.inl (by simp)
  · exact Or.inl (by simp)
  · right
    rw [lexCmp_swap b a] at h
    rcases h2 : lexCmp b a with _ | _ | _ <;> simp [h2, Ordering.swap] at h ⊢

theorem strLe_trans {a b c : List Char} (h1 : strLe a b) (h2 : strLe b c) :
    strLe a c := by
  unfold strLe at *
  rcases hab : lexCmp a b with _ | _ | _
  · rcases hbc : lexCmp b c with _ | _ | _
    · simp [lexCmp_lt_trans hab hbc]
    · rw [← lexCmp_eq_iff.mp hbc, hab]
      simp
    · exact absurd hbc h2
  · rw [lexCmp_eq_iff.mp hab]
    exact h2
  · exact absurd hab h1

theorem strLe_antisymm {a b : List Char} (h1 : strLe a b) (h2 : strLe b a) :
    a = b := by
  unfold strLe at *
  rcases hab : lexCmp a b with _ | _ | _
  · rw [lexCmp_swap a b, hab] at h2
    simp [Ordering.swap] at h2
  · exact lexCmp_eq_iff.mp hab
  · exact absurd hab h1

/-! ## Order instances for the three sort relations -/

instance : IsTotal TravelAdvisory prohRel :=
  ⟨fun a b => strLe_total a.country_name.data b.country_name.data⟩

instance : IsTrans TravelAdvisory prohRel :=
  ⟨fun _ _ _ h1 h2 => strLe_trans h1 h2⟩

instance : IsTotal TravelAdvisory hashRel :=
  ⟨fun a b => strLe_total (hashKey a).data (hashKey b).data⟩

instance : IsTrans TravelAdvisory hashRel :=
  ⟨fun _ _ _ h1 h2 => strLe_trans h1 h2⟩

instance : IsTotal TravelAdvisory hrRel := by
  constructor
  intro a b
  unfold hrRel
  rcases Nat.lt_trichotomy a.overall_level b.overall_level with h | h | h
  · right
    exact Or.inl h
  · rcases Nat.lt_trichotomy a.max_regional_level b.max_regional_level with h2 | h2 | h2
    · right
      exact Or.inr ⟨h.symm, Or.inl h2⟩
    · rcases strLe_total a.country_name.data b.country_name.data with h3 | h3
      · exact Or.inl (Or.inr ⟨h, Or.inr ⟨h2, h3⟩⟩)
      · exact Or.inr (Or.inr ⟨h.symm, Or.inr ⟨h2.symm, h3⟩⟩)
    · exact Or.inl (Or.inr ⟨h, Or.inl h2⟩)
  · exact Or.inl (Or.inl h)

instance : IsTrans TravelAdvisory hrRel := by
  constructor
  intro a b c h1 h2
  unfold hrRel at *
  rcases h1 with h1 | ⟨h1e, h1r⟩
  · rcases h2 with h2 | ⟨h2e, _⟩
    · exact Or.inl (lt_trans h2 h1)
    · exact Or.inl (h2e ▸ h1)
  · rcases h2 with h2 | ⟨h2e, h2r⟩
    · exact Or.inl (h1e ▸ h2)
    · refine Or.inr ⟨h1e.trans h2e, ?_⟩
      rcases h1r with h1r | ⟨h1m, h1s⟩
      · rcases h2r with h2r | ⟨h2m, _⟩
        · exact Or.inl (lt_trans h2r h1r)
        · exact Or.inl (h2m ▸ h1r)
      · rcases h2r with h2r | ⟨h2m, h2s⟩
        · exact Or.inl (h1m ▸ h2r)
        · exact Or.inr ⟨h1m.trans h2m, strLe_trans h1s h2s⟩

/-! ## C5: classifier sort order -/

/-- Fixtures realizing the spec's `{4, 3, 4, 2-with-regional-4}` example. -/
def advAlpha : TravelAdvisory := ⟨"Alpha", "AL", 4, "", dtFix, "", []⟩

def advBravo : TravelAdvisory := ⟨"Bravo", "BR", 3, "", dtFix, "", []⟩

def advCharlie : TravelAdvisory := ⟨"Charlie", "CH", 4, "", dtFix, "", []⟩

def advDelta : TravelAdvisory := ⟨"Delta", "DL", 2, "", dtFix, "", [⟨"Reg", 4, "x"⟩]⟩

/-- C5: for every input list the prohibited output is sorted ascending by
country name and the high-risk output is sorted descending by overall level,
then descending by maximum regional level, then ascending by name; on the
`{4, 3, 4, 2-with-regional-4}` fixture the order is the two level-4 entries
alphabetically, then the level-3 entry, then the regionally-elevated entry. -/
theorem classifier_output_sorted (advisories : List TravelAdvisory) :
    List.Sorted prohRel (filter_high_risk advisories).1
    ∧ List.Sorted hrRel (filter_high_risk advisories).2
    ∧ (filter_high_risk [advDelta, advCharlie, advBravo, advAlpha]).2
        = [advAlpha, advCharlie, advBravo, advDelta]
    ∧ (filter_high_risk [advDelta, advCharlie, advBravo, advAlpha]).1 = [] := by
  refine ⟨?_, ?_, by decide, by decide⟩
  · rw [filter_high_risk_eq]
    exact List.sorted_insertionSort prohRel _
  · rw [filter_high_risk_eq]
    exact List.sorted_insertionSort hrRel _

/-! ## C2: dedup keeps the later update; ties keep the earlier-seen record -/

def advFirst : TravelAdvisory := ⟨"First", "AA", 3, "", dtFix, "", []⟩

def advSecond : TravelAdvisory := ⟨"Second", "AA", 3, "", dtFix, "", []⟩

def advOld : TravelAdvisory := ⟨"Old", "BB", 3, "", ⟨2024, 1, 1, 0, 0, 0, 0, none⟩, "", []⟩

def advNew : TravelAdvisory := ⟨"New", "BB", 3, "", ⟨2024, 2, 1, 0, 0, 0, 0, none⟩, "", []⟩

/-- Counterexample for C2 as stated: at exactly equal timestamps the
deduplicator keeps the earlier-seen record, not the incoming one — the
strict `>` of the source never replaces on a tie. -/
theorem dedup_equal_ts_keeps_earlier :
    (deduplicate_advisories [advFirst, advSecond]).1 = [advFirst]
    ∧ advFirst ≠ advSecond
    ∧ advFirst.last_updated = advSecond.last_updated
    ∧ identityKey advFirst = identityKey advSecond := by decide

/-- C2 (amended): for a pair sharing an identity key the deduplicator keeps
the record with the strictly later last-updated timestamp; at exactly equal
timestamps the earlier-seen record wins and the incoming record is dropped. -/
theorem dedup_keeps_later_update (a b : TravelAdvisory)
    (hk : identityKey a = identityKey b) :
    (a.last_updated.key < b.last_updated.key →
      (deduplicate_advisories [a, b]).1 = [b])
    ∧ (b.last_updated.key < a.last_updated.key →
      (deduplicate_advisories [a, b]).1 = [a])
    ∧ (a.last_updated.key = b.last_updated.key →
      (deduplicate_advisories [a, b]).1 = [a]) := by
  have hstep1 : dedupStep ([], []) a = ([(identityKey a, a)], []) := rfl
  have hlook : lookupD [(identityKey a, a)] (identityKey b) = some a := by
    unfold lookupD
    simp [List.find?, hk]
  constructor
  · intro hlt
    unfold deduplicate_advisories
    rw [List.foldl_cons, List.foldl_cons, List.foldl_nil, hstep1]
    unfold dedupStep
    dsimp only
    rw [hlook]
    simp only [hlt, if_true]
    unfold dictSet
    simp [hk]
  constructor
  · intro hgt
    unfold deduplicate_advisories
    rw [List.foldl_cons, List.foldl_cons, List.foldl_nil, hstep1]
    unfold dedupStep
    dsimp only
    rw [hlook]
    have : ¬ a.last_updated.key < b.last_updated.key := by omega
    simp [this]
  · intro heq
    unfold deduplicate_advisories
    rw [List.foldl_cons, List.foldl_cons, List.foldl_nil, hstep1]
    unfold dedupStep
    dsimp only
    rw [hlook]
    have : ¬ a.last_updated.key < b.last_updated.key := by omega
    simp [this]

/-- Witness for C2 (amended): the strictly-later case and the equal-timestamp
case at concrete fixtures. -/
theorem dedup_keeps_later_update_instance :
    (deduplicate_advisories [advOld, advNew]).1 = [advNew]
    ∧ (deduplicate_advisories [advFirst, advSecond]).1 = [advFirst] :=
  ⟨(dedup_keeps_later_update advOld advNew (by decide)).1 (by decide),
   (dedup_keeps_later_update advFirst advSecond (by decide)).2.2 (by decide)⟩

/-! ## C9: retention of level-0 records -/

/-- C9: a record whose title parses to level 0 is discarded (the parser
returns no advisory) exactly when the parsed name does not satisfy the
prohibited-country predicate; when the name does match, a level-0 advisory
carrying that name is retained. -/
theorem level0_retention (now : DateTime) (raw : RawRecord)
    (h0 : (parse_level_from_title raw.Title).2 = 0) :
    (parse_advisory now raw = none ↔
      is_prohibited_country (parse_level_from_title raw.Title).1 = false)
    ∧ (is_prohibited_country (parse_level_from_title raw.Title).1 = true →
        ∃ adv, parse_advisory now raw = some adv ∧ adv.overall_level = 0
          ∧ adv.country_name = (parse_level_from_title raw.Title).1) := by
  rcases hsplit : parse_level_from_title raw.Title with ⟨name, lvl⟩
  rw [hsplit] at h0
  dsimp only at h0 ⊢
  subst h0
  unfold parse_advisory
  rw [hsplit]
  dsimp only
  by_cases hp : is_prohibited_country name
  · constructor
    · simp [hp]
    · intro _
      refine ⟨⟨name, raw.Category.headD "", 0, clean_html raw.Summary,
        (fromisoformat (pyReplace raw.Updated "Z" "+00:00")).getD now, raw.Link,
        extract_regional_warnings raw.Summary 0⟩, ?_, rfl, rfl⟩
      simp [hp]
  · have hp' : is_prohibited_country name = false := by
      cases h : is_prohibited_country name
      · rfl
      · exact absurd h hp
    constructor
    · simp [hp]
    · intro hcon
      rw [hcon] at hp'
      exact absurd hp' (by simp)

/-- The compound "see summaries" heading of the spec. -/
def rawCompound : RawRecord :=
  ⟨"Mainland China, Hong Kong & Macau - See Summaries", [], "", "", ""⟩

/-- Witness for C9: the compound prohibited heading is retained at level 0. -/
theorem level0_retention_instance :
    ∃ adv, parse_advisory dtFix rawCompound = some adv ∧ adv.overall_level = 0
      ∧ adv.country_name = (parse_level_from_title rawCompound.Title).1 :=
  (level0_retention dtFix rawCompound (by decide)).2 (by decide)

/-! ## C6: extractor patterns and level gating -/

/-- Counterexample for C6 as stated: the scans are not case-insensitive.
Only the initial letter of `[Dd]o`/`[Rr]econsider` is case-flexible (the
patterns are compiled without `re.IGNORECASE`), so the fully-uppercased
Sinai sentence yields no warning while the mixed-case one yields exactly the
expected warning. -/
theorem extractor_not_case_insensitive :
    extract_regional_warnings
        "DO NOT TRAVEL TO THE SINAI PENINSULA DUE TO TERRORISM." 2 = []
    ∧ extract_regional_warnings
        "Do not travel to the Sinai Peninsula due to terrorism." 2
      = [⟨"Sinai Peninsula", 4, "terrorism"⟩] := by decide

/-- C6 (amended): the do-not-travel scan runs only when the overall level is
below 4 and emits level-4 candidates; the reconsider scan runs only below
level 3 and emits level-3 candidates; both match the leading letter in either
case and the remainder lowercase.  At level ≥ 4 nothing is emitted; at level
3 only level-4 warnings are emitted; the Sinai sentence (either leading-case)
yields exactly `{Sinai Peninsula, 4, terrorism}`, and a reconsider sentence
below level 3 yields its level-3 warning. -/
theorem extractor_gating_and_patterns :
    (∀ (s : String) (lvl : Nat), 4 ≤ lvl → extract_regional_warnings s lvl = [])
    ∧ (∀ (s : String) (w : RegionalWarning),
        w ∈ extract_regional_warnings s 3 → w.level = 4)
    ∧ extract_regional_warnings
        "Do not travel to the Sinai Peninsula due to terrorism." 2
      = [⟨"Sinai Peninsula", 4, "terrorism"⟩]
    ∧ extract_regional_warnings
        "do not travel to the Sinai Peninsula due to terrorism." 2
      = [⟨"Sinai Peninsula", 4, "terrorism"⟩]
    ∧ extract_regional_warnings
        "Reconsider travel to the Dhofar region due to crime." 2
      = [⟨"Dhofar region", 3, "crime"⟩] := by
  refine ⟨?_, ?_, by decide, by decide, by decide⟩
  · intro s lvl h4
    unfold extract_regional_warnings extract_from_text
    have h1 : ¬ lvl < 4 := by omega
    have h2 : ¬ lvl < 3 := by omega
    simp [h1, h2]
  · intro s w hw
    unfold extract_regional_warnings extract_from_text at hw
    have h1 : (3 : Nat) < 4 := by omega
    have h2 : ¬ (3 : Nat) < 3 := by omega
    simp only [h1, if_true, h2, if_false] at hw
    rcases foldl_processMatch_mem hw with h | h
    · simp at h
    · exact h.1

/-- Witness for C6 (amended): the gates applied at concrete levels. -/
theorem extractor_gating_instance :
    extract_regional_warnings
        "Do not travel to the Sinai Peninsula due to terrorism." 5 = []
    ∧ (⟨"Sinai Peninsula", 4, "terrorism"⟩ : RegionalWarning).level = 4 :=
  ⟨extractor_gating_and_patterns.1 _ 5 (by decide),
   extractor_gating_and_patterns.2.1
     "Do not travel to the Sinai Peninsula due to terrorism."
     ⟨"Sinai Peninsula", 4, "terrorism"⟩ (by decide)⟩

/-! ## Lemmas: the dedup dictionary -/

/-- The dictionary component of one dedup iteration. -/
def dStep (d : ADict) (adv : TravelAdvisory) : ADict :=
  let key := identityKey adv
  match lookupD d key with
  | some existing =>
    if existing.last_updated.key < adv.last_updated.key then dictSet d key adv
    else d
  | none => dictSet d key adv

def dFold (d : ADict) (l : List TravelAdvisory) : ADict := l.foldl dStep d

theorem dedupStep_fst (st : ADict × List String) (adv : TravelAdvisory) :
    (dedupStep st adv).1 = dStep st.1 adv := by
  unfold dedupStep dStep
  dsimp only
  rcases lookupD st.1 (identityKey adv) with _ | e
  · rfl
  · dsimp only
    split <;> rfl

theorem dedup_foldl_fst (l : List TravelAdvisory) :
    ∀ st : ADict × List String, (l.foldl dedupStep st).1 = dFold st.1 l := by
  induction l with
  | nil => intro st; rfl
  | cons a t ih =>
    intro st
    rw [List.foldl_cons]
    rw [ih (dedupStep st a), dedupStep_fst]
    rfl

theorem dedup_fst (l : List TravelAdvisory) :
    (deduplicate_advisories l).1 = (dFold [] l).map (fun e => e.2) := by
  unfold deduplicate_advisories
  dsimp only
  rw [dedup_foldl_fst]

theorem lookupD_cons (e : String × TravelAdvisory) (d : ADict) (k : String) :
    lookupD (e :: d) k = if e.1 = k then some e.2 else lookupD d k := by
  unfold lookupD
  rw [List.find?]
  by_cases h : e.1 = k
  · simp [h]
  · have : (e.1 == k) = false := by
      simpa using h
    simp [this, h]

theorem lookupD_none_iff {d : ADict} {k : String} :
    lookupD d k = none ↔ ∀ e ∈ d, e.1 ≠ k := by
  induction d with
  | nil => simp [lookupD]
  | cons e d ih =>
    rw [lookupD_cons]
    by_cases h : e.1 = k
    · simp [h]
    · simp [h, ih]

theorem lookupD_dictSet_same (d : ADict) (k : String) (v : TravelAdvisory) :
    lookupD (dictSet d k v) k = some v := by
  induction d with
  | nil => simp [dictSet, lookupD_cons]
  | cons e d ih =>
    rw [dictSet]
    by_cases h : e.1 = k
    · simp only [h, beq_self_eq_true, if_true]
      rw [lookupD_cons]
      simp
    · have hb : (e.1 == k) = false := by simpa using h
      rw [hb]
      simp only [Bool.false_eq_true, if_false]
      rw [lookupD_cons]
      simp [h, ih]

theorem lookupD_dictSet_other (d : ADict) {k k' : String} (v : TravelAdvisory)
    (h : k ≠ k') : lookupD (dictSet d k v) k' = lookupD d k' := by
  induction d with
  | nil => simp [dictSet, lookupD_cons, h, lookupD]
  | cons e d ih =>
    rw [dictSet]
    by_cases he : e.1 = k
    · simp only [he, beq_self_eq_true, if_true]
      rw [lookupD_cons, lookupD_cons]
      simp [h, he]
    · have hb : (e.1 == k) = false := by simpa using he
      rw [hb]
      simp only [Bool.false_eq_true, if_false]
      rw [lookupD_cons, lookupD_cons, ih]

/-- Keys are distinct and every entry's key is its value's identity key. -/
def DictOK (d : ADict) : Prop :=
  d.Pairwise (fun e f => e.1 ≠ f.1) ∧ ∀ e ∈ d, e.1 = identityKey e.2

theorem dictSet_of_lookup_none {d : ADict} {k : String} (v : TravelAdvisory)
    (h : lookupD d k = none) : dictSet d k v = d ++ [(k, v)] := by
  induction d with
  | nil => rfl
  | cons e d ih =>
    rw [lookupD_cons] at h
    by_cases he : e.1 = k
    · simp [he] at h
    · have hb : (e.1 == k) = false := by simpa using he
      rw [dictSet, hb]
      simp only [Bool.false_eq_true, if_false]
      rw [ih (by simpa [he] using h)]
      simp

theorem dictSet_of_lookup_some {d : ADict} {k : String} {w : TravelAdvisory}
    (v : TravelAdvisory) (hnd : d.Pairwise (fun e f => e.1 ≠ f.1))
    (h : lookupD d k = some w) :
    dictSet d k v = d.map (fun e => if e.1 = k then (k, v) else e) := by
  induction d with
  | nil => simp [lookupD] at h
  | cons e d ih =>
    rw [lookupD_cons] at h
    rw [List.pairwise_cons] at hnd
    by_cases he : e.1 = k
    · rw [dictSet]
      have hb : (e.1 == k) = true := by simpa using he
      rw [hb]
      simp only [if_true]
      rw [List.map_cons]
      simp only [he, if_true]
      have : d.map (fun f => if f.1 = k then (k, v) else f) = d := by
        apply List.map_congr_left ?_ |>.trans (List.map_id d)
        intro f hf
        have : f.1 ≠ k := he ▸ (hnd.1 f hf).symm
        simp [this]
      rw [this]
    · have hb : (e.1 == k) = false := by simpa using he
      rw [dictSet, hb]
      simp only [Bool.false_eq_true, if_false, List.map_cons, he, if_false]
      rw [ih hnd.2 (by simpa [he] using h)]

theorem dictSet_fst_map (d : ADict) (k : String) (v : TravelAdvisory) :
    ∀ e ∈ dictSet d k v, e.1 = k ∨ e ∈ d := by
  induction d with
  | nil => simp [dictSet]
  | cons f d ih =>
    rw [dictSet]
    by_cases hf : f.1 = k
    · simp only [hf, beq_self_eq_true, if_true]
      intro e he
      rcases List.mem_cons.mp he with h | h
      · exact Or.inl (by simp [h])
      · exact Or.inr (List.mem_cons_of_mem f h)
    · have hb : (f.1 == k) = false := by simpa using hf
      rw [hb]
      simp only [Bool.false_eq_true, if_false]
      intro e he
      rcases List.mem_cons.mp he with h | h
      · exact Or.inr (h ▸ List.mem_cons_self f d)
      · rcases ih e h with h2 | h2
        · exact Or.inl h2
        · exact Or.inr (List.mem_cons_of_mem f h2)

theorem dStep_eq_none {d : ADict} {adv : TravelAdvisory}
    (hl : lookupD d (identityKey adv) = none) :
    dStep d adv = d ++ [(identityKey adv, adv)] := by
  unfold dStep
  dsimp only
  rw [hl, dictSet_of_lookup_none adv hl]

theorem dStep_eq_replace {d : ADict} {adv e : TravelAdvisory}
    (hl : lookupD d (identityKey adv) = some e)
    (hlt : e.last_updated.key < adv.last_updated.key) :
    dStep d adv = dictSet d (identityKey adv) adv := by
  unfold dStep
  dsimp only
  rw [hl]
  simp [hlt]

theorem dStep_eq_keep {d : ADict} {adv e : TravelAdvisory}
    (hl : lookupD d (identityKey adv) = some e)
    (hnlt : ¬ e.last_updated.key < adv.last_updated.key) :
    dStep d adv = d := by
  unfold dStep
  dsimp only
  rw [hl]
  simp [hnlt]

theorem dictOK_dStep {d : ADict} (hok : DictOK d) (adv : TravelAdvisory) :
    DictOK (dStep d adv) := by
  obtain ⟨hnd, hkey⟩ := hok
  rcases hl : lookupD d (identityKey adv) with _ | e
  · rw [dStep_eq_none hl]
    constructor
    · rw [List.pairwise_append]
      refine ⟨hnd, by simp, ?_⟩
      intro e he f hf
      have := lookupD_none_iff.mp hl e he
      simp only [List.mem_singleton] at hf
      rw [hf]
      exact this
    · intro e he
      rcases List.mem_append.mp he with h | h
      · exact hkey e h
      · simp only [List.mem_singleton] at h
        rw [h]
  · by_cases hlt : e.last_updated.key < adv.last_updated.key
    · rw [dStep_eq_replace hl hlt, dictSet_of_lookup_some adv hnd hl]
      constructor
      · rw [List.pairwise_map]
        refine hnd.imp_of_mem ?_
        intro e f he hf hne
        by_cases h1 : e.1 = identityKey adv <;> by_cases h2 : f.1 = identityKey adv
        · exact absurd (h1.trans h2.symm) hne
        · simp only [h1, h2, if_true, if_false]
          exact fun hc => h2 hc.symm
        · simp only [h1, h2, if_true, if_false]
          exact fun hc => h1 hc
        · simp only [h1, h2, if_false]
          exact hne
      · intro e he
        rcases List.mem_map.mp he with ⟨f, hf, hfe⟩
        by_cases h1 : f.1 = identityKey adv
        · rw [← hfe]
          simp [h1]
        · rw [← hfe]
          simp only [h1, if_false]
          exact hkey f hf
    · rw [dStep_eq_keep hl hlt]
      exact ⟨hnd, hkey⟩

theorem lookupD_eq_some_iff {d : ADict} (hnd : d.Pairwise (fun e f => e.1 ≠ f.1))
    {k : String} {v : TravelAdvisory} :
    lookupD d k = some v ↔ (k, v) ∈ d := by
  induction d with
  | nil => simp [lookupD]
  | cons e d ih =>
    rw [List.pairwise_cons] at hnd
    rw [lookupD_cons]
    by_cases he : e.1 = k
    · simp only [he, if_true, Option.some.injEq, List.mem_cons]
      constructor
      · intro h
        left
        rw [← h, ← he]
      · intro h
        rcases h with h | h
        · rw [← h]
        · exact absurd rfl (he ▸ (hnd.1 (k, v) h))
    · rw [if_neg he, ih hnd.2]
      simp only [List.mem_cons]
      constructor
      · exact Or.inr
      · intro h
        rcases h with h | h
        · exact absurd (congrArg Prod.fst h).symm he
        · exact h

theorem lookupD_of_perm {d₁ d₂ : ADict}
    (hnd : d₁.Pairwise (fun e f => e.1 ≠ f.1)) (hp : d₁.Perm d₂) (k : String) :
    lookupD d₁ k = lookupD d₂ k := by
  have hnd₂ : d₂.Pairwise (fun e f => e.1 ≠ f.1) :=
    (hp.pairwise_iff (fun h hc => h hc.symm)).mp hnd
  rcases h1 : lookupD d₁ k with _ | v
  · rcases h2 : lookupD d₂ k with _ | w
    · rfl
    · have := lookupD_eq_some_iff hnd₂ |>.mp h2
      have hmem := hp.mem_iff.mpr this
      have := lookupD_none_iff.mp h1 (k, w) hmem
      simp at this
  · have := lookupD_eq_some_iff hnd |>.mp h1
    exact ((lookupD_eq_some_iff hnd₂).mpr (hp.mem_iff.mp this)).symm

theorem dictOK_of_perm {d₁ d₂ : ADict} (hok : DictOK d₁) (hp : d₁.Perm d₂) :
    DictOK d₂ :=
  ⟨(hp.pairwise_iff (fun h hc => h hc.symm)).mp hok.1,
   fun e he => hok.2 e (hp.mem_iff.mpr he)⟩

theorem dStep_of_perm {d₁ d₂ : ADict} (hok : DictOK d₁) (hp : d₁.Perm d₂)
    (adv : TravelAdvisory) : (dStep d₁ adv).Perm (dStep d₂ adv) := by
  have hlook := lookupD_of_perm hok.1 hp (identityKey adv)
  have hok₂ := dictOK_of_perm hok hp
  rcases hl : lookupD d₁ (identityKey adv) with _ | e
  · rw [dStep_eq_none hl, dStep_eq_none (hlook ▸ hl)]
    exact hp.append_right [(identityKey adv, adv)]
  · by_cases hlt : e.last_updated.key < adv.last_updated.key
    · rw [dStep_eq_replace hl hlt, dStep_eq_replace (hlook ▸ hl) hlt,
         dictSet_of_lookup_some adv hok.1 hl,
         dictSet_of_lookup_some adv hok₂.1 (hlook ▸ hl)]
      exact hp.map _
    · rw [dStep_eq_keep hl hlt, dStep_eq_keep (hlook ▸ hl) hlt]
      exact hp

theorem dFold_of_perm {d₁ d₂ : ADict} (l : List TravelAdvisory)
    (hok : DictOK d₁) (hp : d₁.Perm d₂) : (dFold d₁ l).Perm (dFold d₂ l) := by
  induction l generalizing d₁ d₂ with
  | nil => exact hp
  | cons a t ih =>
    exact ih (dictOK_dStep hok a) (dStep_of_perm hok hp a)

theorem mem_dictSet {d : ADict} {k : String} {v : TravelAdvisory}
    {e : String × TravelAdvisory} (he : e ∈ dictSet d k v) :
    e = (k, v) ∨ e ∈ d := by
  induction d with
  | nil => simpa [dictSet] using he
  | cons f d ih =>
    rw [dictSet] at he
    split at he
    · rcases List.mem_cons.mp he with h | h
      · exact Or.inl h
      · exact Or.inr (List.mem_cons_of_mem f h)
    · rcases List.mem_cons.mp he with h | h
      · exact Or.inr (h ▸ List.mem_cons_self f d)
      · rcases ih h with h2 | h2
        · exact Or.inl h2
        · exact Or.inr (List.mem_cons_of_mem f h2)

theorem mem_dStep {d : ADict} {adv : TravelAdvisory} {e : String × TravelAdvisory}
    (he : e ∈ dStep d adv) : e ∈ d ∨ e.2 = adv := by
  rcases hl : lookupD d (identityKey adv) with _ | w
  · rw [dStep_eq_none hl] at he
    rcases List.mem_append.mp he with h | h
    · exact Or.inl h
    · simp only [List.mem_singleton] at h
      exact Or.inr (by rw [h])
  · by_cases hlt : w.last_updated.key < adv.last_updated.key
    · rw [dStep_eq_replace hl hlt] at he
      rcases mem_dictSet he with h | h
      · exact Or.inr (by rw [h])
      · exact Or.inl h
    · rw [dStep_eq_keep hl hlt] at he
      exact Or.inl he

theorem mem_dFold_src : ∀ {l : List TravelAdvisory} {d : ADict}
    {e : String × TravelAdvisory}, e ∈ dFold d l → e ∈ d ∨ e.2 ∈ l := by
  intro l
  induction l with
  | nil => intro d e he; exact Or.inl he
  | cons a t ih =>
    intro d e he
    rcases @ih (dStep d a) _ he with h | h
    · rcases mem_dStep h with h2 | h2
      · exact Or.inl h2
      · exact Or.inr (by rw [h2]; exact List.mem_cons_self a t)
    · exact Or.inr (List.mem_cons_of_mem a h)

theorem dStep_eq_set_of_none {d : ADict} {adv : TravelAdvisory}
    (hl : lookupD d (identityKey adv) = none) :
    dStep d adv = dictSet d (identityKey adv) adv := by
  unfold dStep
  dsimp only
  rw [hl]

theorem dictSet_dictSet_same (d : ADict) (k : String) (v w : TravelAdvisory) :
    dictSet (dictSet d k v) k w = dictSet d k w := by
  induction d with
  | nil => simp [dictSet]
  | cons e d ih =>
    by_cases he : e.1 = k
    · have hb : (e.1 == k) = true := by simpa using he
      rw [dictSet, hb]
      simp only [if_true]
      rw [dictSet, dictSet, hb]
      simp [dictSet]
    · have hb : (e.1 == k) = false := by simpa using he
      rw [dictSet, hb]
      simp only [Bool.false_eq_true, if_false]
      rw [dictSet, hb]
      simp only [Bool.false_eq_true, if_false]
      rw [dictSet, hb]
      simp only [Bool.false_eq_true, if_false, ih]

theorem dictSet_comm {k k' : String} (h : k ≠ k') (d : ADict)
    (v v' : TravelAdvisory) :
    (dictSet (dictSet d k v) k' v').Perm (dictSet (dictSet d k' v') k v) := by
  induction d with
  | nil =>
    have hb : (k == k') = false := by simpa using h
    have hb' : (k' == k) = false := by simpa using fun hc => h hc.symm
    simp only [dictSet, hb, hb', Bool.false_eq_true, if_false]
    exact List.Perm.swap _ _ _
  | cons e d ih =>
    by_cases he : e.1 = k
    · have hbk : (e.1 == k) = true := by simpa using he
      have hbk' : (e.1 == k') = false := by
        have : e.1 ≠ k' := fun hc => h (he.symm.trans hc)
        simpa using this
      have hkk' : (k == k') = false := by simpa using h
      rw [dictSet, hbk]
      simp only [if_true]
      rw [dictSet, hkk']
      simp only [Bool.false_eq_true, if_false]
      rw [dictSet, hbk']
      simp only [Bool.false_eq_true, if_false]
      rw [dictSet, hbk]
      simp only [if_true]
      exact List.Perm.refl _
    · by_cases he' : e.1 = k'
      · have hbk : (e.1 == k) = false := by simpa using he
        have hbk' : (e.1 == k') = true := by simpa using he'
        have hk'k : (k' == k) = false := by simpa using fun hc => h hc.symm
        rw [dictSet, hbk]
        simp only [Bool.false_eq_true, if_false]
        rw [dictSet, hbk']
        simp only [if_true]
        rw [dictSet, hbk']
        simp only [if_true]
        rw [dictSet, hk'k]
        simp only [Bool.false_eq_true, if_false]
        exact List.Perm.refl _
      · have hbk : (e.1 == k) = false := by simpa using he
        have hbk' : (e.1 == k') = false := by simpa using he'
        rw [dictSet, hbk]
        simp only [Bool.false_eq_true, if_false]
        rw [dictSet, hbk']
        simp only [Bool.false_eq_true, if_false]
        rw [dictSet, hbk']
        simp only [Bool.false_eq_true, if_false]
        rw [dictSet, hbk]
        simp only [Bool.false_eq_true, if_false]
        exact ih.cons e

/-- Symmetric side condition for the swap argument: records sharing an
identity key never carry equal timestamps. -/
def tsOK (x y : TravelAdvisory) : Prop :=
  identityKey x = identityKey y → x.last_updated.key ≠ y.last_updated.key

theorem tsOK_symm {x y : TravelAdvisory} (h : tsOK x y) : tsOK y x :=
  fun hk hts => h hk.symm hts.symm

/-- Processing two records in either order leaves the dictionary the same up
to entry order, provided equal-key records have distinct timestamps. -/
theorem dStep_comm {d : ADict} {x y : TravelAdvisory} (hts : tsOK x y) :
    (dStep (dStep d x) y).Perm (dStep (dStep d y) x) := by
  by_cases hk : identityKey x = identityKey y
  · have htsne := hts hk
    rcases hl : lookupD d (identityKey x) with _ | e
    · have hly : lookupD d (identityKey y) = none := by rw [← hk]; exact hl
      have hd1 : dStep d x = dictSet d (identityKey x) x := dStep_eq_set_of_none hl
      have hd2 : dStep d y = dictSet d (identityKey y) y := dStep_eq_set_of_none hly
      have hl1 : lookupD (dStep d x) (identityKey y) = some x := by
        rw [hd1, ← hk]
        exact lookupD_dictSet_same d _ x
      have hl2 : lookupD (dStep d y) (identityKey x) = some y := by
        rw [hd2, hk]
        exact lookupD_dictSet_same d _ y
      rcases Int.lt_trichotomy x.last_updated.key y.last_updated.key with hxy | hxy | hxy
      · rw [dStep_eq_replace hl1 hxy, dStep_eq_keep hl2 (by omega), hd1, hd2, ← hk,
           dictSet_dictSet_same]
      · exact absurd hxy htsne
      · rw [dStep_eq_keep hl1 (by omega), dStep_eq_replace hl2 hxy, hd1, hd2, hk,
           dictSet_dictSet_same]
    · have hly : lookupD d (identityKey y) = some e := by rw [← hk]; exact hl
      by_cases hex : e.last_updated.key < x.last_updated.key
      · have hd1 : dStep d x = dictSet d (identityKey x) x := dStep_eq_replace hl hex
        have hl1 : lookupD (dStep d x) (identityKey y) = some x := by
          rw [hd1, ← hk]
          exact lookupD_dictSet_same d _ x
        rcases Int.lt_trichotomy x.last_updated.key y.last_updated.key with hxy | hxy | hxy
        · have hey : e.last_updated.key < y.last_updated.key := by omega
          have hd2 : dStep d y = dictSet d (identityKey y) y := dStep_eq_replace hly hey
          have hl2 : lookupD (dStep d y) (identityKey x) = some y := by
            rw [hd2, hk]
            exact lookupD_dictSet_same d _ y
          rw [dStep_eq_replace hl1 hxy, dStep_eq_keep hl2 (by omega), hd1, hd2, ← hk,
             dictSet_dictSet_same]
        · exact absurd hxy htsne
        · rw [dStep_eq_keep hl1 (by omega), hd1]
          by_cases hey : e.last_updated.key < y.last_updated.key
          · have hd2 : dStep d y = dictSet d (identityKey y) y :=
              dStep_eq_replace hly hey
            have hl2 : lookupD (dStep d y) (identityKey x) = some y := by
              rw [hd2, hk]
              exact lookupD_dictSet_same d _ y
            rw [dStep_eq_replace hl2 hxy, hd2, hk, dictSet_dictSet_same, ← hk]
          · have hd2 : dStep d y = d := dStep_eq_keep hly hey
            rw [hd2, dStep_eq_replace hl hex]
      · have hd1 : dStep d x = d := dStep_eq_keep hl hex
        rw [hd1]
        by_cases hey : e.last_updated.key < y.last_updated.key
        · have hd2 : dStep d y = dictSet d (identityKey y) y := dStep_eq_replace hly hey
          have hl2 : lookupD (dStep d y) (identityKey x) = some y := by
            rw [hd2, hk]
            exact lookupD_dictSet_same d _ y
          have hyx : ¬ y.last_updated.key < x.last_updated.key := by
            intro hcon
            exact hex (by omega)
          rw [dStep_eq_keep hl2 (by omega), hd2]
        · have hd2 : dStep d y = d := dStep_eq_keep hly hey
          rw [hd2, hd1]
  · -- distinct keys: the two updates commute
    have hxdec : (∀ d' : ADict,
          lookupD d' (identityKey x) = lookupD d (identityKey x) →
          dStep d' x = dictSet d' (identityKey x) x)
        ∨ (∀ d' : ADict,
          lookupD d' (identityKey x) = lookupD d (identityKey x) →
          dStep d' x = d') := by
      rcases hlx : lookupD d (identityKey x) with _ | ex
      · exact Or.inl (fun d' hl' => dStep_eq_set_of_none (hlx ▸ hl'))
      · by_cases hex : ex.last_updated.key < x.last_updated.key
        · exact Or.inl (fun d' hl' => dStep_eq_replace (hlx ▸ hl') hex)
        · exact Or.inr (fun d' hl' => dStep_eq_keep (hlx ▸ hl') hex)
    have hydec : (∀ d' : ADict,
          lookupD d' (identityKey y) = lookupD d (identityKey y) →
          dStep d' y = dictSet d' (identityKey y) y)
        ∨ (∀ d' : ADict,
          lookupD d' (identityKey y) = lookupD d (identityKey y) →
          dStep d' y = d') := by
      rcases hly : lookupD d (identityKey y) with _ | ey
      · exact Or.inl (fun d' hl' => dStep_eq_set_of_none (hly ▸ hl'))
      · by_cases hey : ey.last_updated.key < y.last_updated.key
        · exact Or.inl (fun d' hl' => dStep_eq_replace (hly ▸ hl') hey)
        · exact Or.inr (fun d' hl' => dStep_eq_keep (hly ▸ hl') hey)
    have hDx : dStep d x = dictSet d (identityKey x) x ∨ dStep d x = d := by
      rcases hxdec with hs | hkp
      · exact Or.inl (hs d rfl)
      · exact Or.inr (hkp d rfl)
    have hDy : dStep d y = dictSet d (identityKey y) y ∨ dStep d y = d := by
      rcases hydec with hs | hkp
      · exact Or.inl (hs d rfl)
      · exact Or.inr (hkp d rfl)
    have hlook_x : lookupD (dStep d y) (identityKey x) = lookupD d (identityKey x) := by
      rcases hDy with h2 | h2 <;> rw [h2]
      exact lookupD_dictSet_other d y (fun hc => hk hc.symm)
    have hlook_y : lookupD (dStep d x) (identityKey y) = lookupD d (identityKey y) := by
      rcases hDx with h2 | h2 <;> rw [h2]
      exact lookupD_dictSet_other d x hk
    rcases hxdec with hxs | hxk
    · rcases hydec with hys | hyk
      · rw [hxs d rfl] at hlook_y ⊢
        rw [hys d rfl] at hlook_x ⊢
        rw [hys _ hlook_y, hxs _ hlook_x]
        exact dictSet_comm hk d x y
      · rw [hxs d rfl] at hlook_y ⊢
        rw [hyk d rfl] at hlook_x ⊢
        rw [hyk _ hlook_y, hxs d rfl]
    · rcases hydec with hys | hyk
      · rw [hxk d rfl] at hlook_y ⊢
        rw [hys d rfl] at hlook_x ⊢
        rw [hxk _ hlook_x]
      · rw [hxk d rfl] at hlook_y ⊢
        rw [hyk d rfl] at hlook_x ⊢
        rw [hxk d rfl]

theorem dFold_perm_of_perm {l l' : List TravelAdvisory} (hperm : l.Perm l') :
    ∀ {d₁ d₂ : ADict}, DictOK d₁ → d₁.Perm d₂ → l.Pairwise tsOK →
    (dFold d₁ l).Perm (dFold d₂ l') := by
  induction hperm with
  | nil =>
    intro d₁ d₂ _ hp _
    exact hp
  | cons a _ ih =>
    intro d₁ d₂ hok hp hpw
    exact ih (dictOK_dStep hok a) (dStep_of_perm hok hp a)
      (List.pairwise_cons.mp hpw).2
  | swap x y l =>
    intro d₁ d₂ hok hp hpw
    -- goal: dFold d₁ (y :: x :: l) ~ dFold d₂ (x :: y :: l)
    have hyx : tsOK y x := (List.pairwise_cons.mp hpw).1 x (List.mem_cons_self x l)
    have h1 : (dStep (dStep d₁ y) x).Perm (dStep (dStep d₂ y) x) :=
      dStep_of_perm (dictOK_dStep hok y) (dStep_of_perm hok hp y) x
    have h2 : (dStep (dStep d₂ y) x).Perm (dStep (dStep d₂ x) y) :=
      (dStep_comm (tsOK_symm hyx)).symm
    exact dFold_of_perm l (dictOK_dStep (dictOK_dStep hok y) x) (h1.trans h2)
  | trans h₁ _ ih₁ ih₂ =>
    intro d₁ d₂ hok hp hpw
    have hmid := ih₁ hok (List.Perm.refl d₁) hpw
    have hpw₂ := (h₁.pairwise_iff (fun h => tsOK_symm h)).mp hpw
    exact hmid.trans (ih₂ hok hp hpw₂)

theorem dictOK_nil : DictOK [] := ⟨List.Pairwise.nil, by simp⟩

theorem dictOK_dFold (l : List TravelAdvisory) :
    ∀ {d : ADict}, DictOK d → DictOK (dFold d l) := by
  induction l with
  | nil => intro d h; exact h
  | cons a t ih => intro d h; exact ih (dictOK_dStep h a)

/-- Under pairwise-distinct timestamps per identity key, the deduplicated
survivors of two arrival orders are the same up to order. -/
theorem dedup_values_perm {l l' : List TravelAdvisory} (hperm : l.Perm l')
    (hpw : l.Pairwise tsOK) :
    (deduplicate_advisories l).1.Perm (deduplicate_advisories l').1 := by
  rw [dedup_fst, dedup_fst]
  exact (dFold_perm_of_perm hperm dictOK_nil (List.Perm.refl []) hpw).map _

/-- Survivors carry pairwise-distinct identity keys. -/
theorem dedup_values_pairwise_keys (l : List TravelAdvisory) :
    ((deduplicate_advisories l).1).Pairwise
      (fun a b => identityKey a ≠ identityKey b) := by
  rw [dedup_fst]
  have hok := dictOK_dFold l dictOK_nil
  rw [List.pairwise_map]
  refine hok.1.imp_of_mem ?_
  intro e f he hf hne hcon
  exact hne (by rw [hok.2 e he, hok.2 f hf, hcon])

/-- Every survivor is one of the input records. -/
theorem dedup_values_mem_src {l : List TravelAdvisory} {a : TravelAdvisory}
    (ha : a ∈ (deduplicate_advisories l).1) : a ∈ l := by
  rw [dedup_fst] at ha
  rcases List.mem_map.mp ha with ⟨e, he, hea⟩
  rcases mem_dFold_src he with h | h
  · simp at h
  · exact hea ▸ h

/-! ## Lemmas: classifier outputs inherit pairwise-distinct keys -/

theorem filter_high_risk_append_perm (S : List TravelAdvisory) :
    ((filter_high_risk S).1 ++ (filter_high_risk S).2).Perm
      (S.filter prohB ++ S.filter hrB) := by
  rw [filter_high_risk_eq]
  exact (List.perm_insertionSort prohRel _).append (List.perm_insertionSort hrRel _)

theorem filter_high_risk_append_pairwise {S : List TravelAdvisory}
    {R : TravelAdvisory → TravelAdvisory → Prop}
    (hsym : ∀ {a b : TravelAdvisory}, R a b → R b a) (hpw : S.Pairwise R) :
    ((filter_high_risk S).1 ++ (filter_high_risk S).2).Pairwise R := by
  refine ((filter_high_risk_append_perm S).pairwise_iff hsym).mpr ?_
  rw [List.pairwise_append]
  refine ⟨List.Pairwise.sublist (List.filter_sublist S) hpw,
          List.Pairwise.sublist (List.filter_sublist S) hpw, ?_⟩
  intro a ha b hb
  have hap : prohB a = true := List.of_mem_filter ha
  have hbh : hrB b = true := List.of_mem_filter hb
  have hne : a ≠ b := by
    intro hcon
    have : is_prohibited_country b.country_name = false := hrB_not_prohibited hbh
    rw [← hcon] at this
    unfold prohB at hap
    rw [hap] at this
    exact absurd this (by simp)
  exact List.Pairwise.forall (fun _ _ h => hsym h) hpw
    (List.mem_of_mem_filter ha) (List.mem_of_mem_filter hb) hne

theorem codes_nodup {l : List TravelAdvisory}
    (hpw : l.Pairwise (fun a b => identityKey a ≠ identityKey b)) :
    ((l.filter (fun a => a.country_code ≠ "")).map
      (fun a => a.country_code)).Nodup := by
  unfold List.Nodup
  rw [List.pairwise_map]
  refine (List.Pairwise.sublist (List.filter_sublist l) hpw).imp_of_mem ?_
  intro a b ha hb hne hcode
  have haC : a.country_code ≠ "" := by simpa using List.of_mem_filter ha
  have hbC : b.country_code ≠ "" := by simpa using List.of_mem_filter hb
  apply hne
  unfold identityKey
  rw [if_pos haC, if_pos hbC, hcode]

theorem dupFold_no_errors :
    ∀ (codes : List String), codes.Nodup →
    ∀ (seen : List String), (∀ c ∈ codes, c ∉ seen) →
    (codes.foldl
      (fun (st : List String × List String) code =>
        ((if code ∈ st.1 then st.1 else st.1 ++ [code]),
         (if code ∈ st.1 then
            st.2 ++ ["DUPLICATE: Country code \x27" ++ code
              ++ "\x27 appears more than once"]
          else st.2)))
      (seen, [])).2 = [] := by
  intro codes
  induction codes with
  | nil => intro _ seen _; rfl
  | cons c cs ih =>
    intro hnd seen hnotin
    rw [List.foldl_cons]
    have hc : c ∉ seen := hnotin c (List.mem_cons_self c cs)
    simp only [hc, if_false, if_neg hc]
    apply ih (List.Nodup.of_cons hnd)
    intro c' hc' hmem
    rcases List.mem_append.mp hmem with h | h
    · exact hnotin c' (List.mem_cons_of_mem c hc') h
    · simp only [List.mem_singleton] at h
      have : c ∉ cs := (List.nodup_cons.mp hnd).1
      exact this (h ▸ hc')

theorem duplicateCodeErrors_eq_nil {l : List TravelAdvisory}
    (h : ((l.filter (fun a => a.country_code ≠ "")).map
      (fun a => a.country_code)).Nodup) :
    duplicateCodeErrors l = [] := by
  unfold duplicateCodeErrors
  dsimp only
  apply dupFold_no_errors _ h
  simp

/-! ## C10: the duplicate-code assertion is unreachable after dedup -/

/-- C10: applying the classifier to a deduplicated list, no non-empty country
code appears more than once across the prohibited and high-risk outputs, so
the duplicate-code assertion of the verification engine accumulates no
error. -/
theorem no_duplicate_codes_after_dedup (advisories : List TravelAdvisory) :
    duplicateCodeErrors
      ((filter_high_risk (deduplicate_advisories advisories).1).1
        ++ (filter_high_risk (deduplicate_advisories advisories).1).2) = []
    ∧ ((((filter_high_risk (deduplicate_advisories advisories).1).1
        ++ (filter_high_risk (deduplicate_advisories advisories).1).2).filter
          (fun a => a.country_code ≠ "")).map
        (fun a => a.country_code)).Nodup := by
  have hpw := dedup_values_pairwise_keys advisories
  have hpwU := filter_high_risk_append_pairwise
    (fun h hc => h hc.symm) hpw
  have hnd := codes_nodup hpwU
  exact ⟨duplicateCodeErrors_eq_nil hnd, hnd⟩

/-! ## Lemmas: the fingerprint under permutation -/

theorem eq_of_perm_of_keyLt {f : TravelAdvisory → List Char} :
    ∀ {l₁ l₂ : List TravelAdvisory}, l₁.Perm l₂ →
    l₁.Pairwise (fun a b => lexCmp (f a) (f b) = .lt) →
    l₂.Pairwise (fun a b => lexCmp (f a) (f b) = .lt) → l₁ = l₂ := by
  intro l₁
  induction l₁ with
  | nil =>
    intro l₂ hp _ _
    exact (hp.symm.eq_nil).symm
  | cons a t ih =>
    intro l₂ hp h1 h2
    cases l₂ with
    | nil => exact absurd hp.eq_nil (by simp)
    | cons b t₂ =>
      by_cases hab : a = b
      · subst hab
        rw [ih hp.cons_inv (List.pairwise_cons.mp h1).2 (List.pairwise_cons.mp h2).2]
      · have ha2 : a ∈ b :: t₂ := hp.mem_iff.mp (List.mem_cons_self a t)
        have hb1 : b ∈ a :: t := hp.mem_iff.mpr (List.mem_cons_self b t₂)
        have ha : a ∈ t₂ := by
          rcases List.mem_cons.mp ha2 with h | h
          · exact absurd h hab
          · exact h
        have hb : b ∈ t := by
          rcases List.mem_cons.mp hb1 with h | h
          · exact absurd h.symm hab
          · exact h
        have h1ab : lexCmp (f a) (f b) = .lt := (List.pairwise_cons.mp h1).1 b hb
        have h2ba : lexCmp (f b) (f a) = .lt := (List.pairwise_cons.mp h2).1 a ha
        rw [lexCmp_swap, h1ab] at h2ba
        simp [Ordering.swap] at h2ba

theorem compute_data_hash_eq_of_perm {l₁ l₂ : List TravelAdvisory}
    (hp : l₁.Perm l₂)
    (hpw : l₁.Pairwise (fun a b => hashKey a ≠ hashKey b)) :
    compute_data_hash l₁ = compute_data_hash l₂ := by
  unfold compute_data_hash
  have hsym : ∀ {a b : TravelAdvisory},
      hashKey a ≠ hashKey b → hashKey b ≠ hashKey a := fun h hc => h hc.symm
  have hpw₂ : l₂.Pairwise (fun a b => hashKey a ≠ hashKey b) :=
    (hp.pairwise_iff hsym).mp hpw
  have hpwS₁ := ((List.perm_insertionSort hashRel l₁).pairwise_iff hsym).mpr hpw
  have hpwS₂ := ((List.perm_insertionSort hashRel l₂).pairwise_iff hsym).mpr hpw₂
  have hstrict : ∀ {m : List TravelAdvisory}, List.Sorted hashRel m →
      m.Pairwise (fun a b => hashKey a ≠ hashKey b) →
      m.Pairwise (fun a b => lexCmp (hashKey a).data (hashKey b).data = .lt) := by
    intro m hs hd
    refine (hs.and hd).imp ?_
    intro a b ⟨hle, hne⟩
    unfold hashRel strLe at hle
    rcases hcase : lexCmp (hashKey a).data (hashKey b).data with _ | _ | _
    · rfl
    · have hdata : (hashKey a).data = (hashKey b).data := lexCmp_eq_iff.mp hcase
      have : hashKey a = hashKey b := by
        cases hA : hashKey a
        cases hB : hashKey b
        rw [hA, hB] at hdata
        simp only [] at hdata
        rw [hdata]
      exact absurd this hne
    · exact absurd hcase hle
  have hperm : (List.insertionSort hashRel l₁).Perm (List.insertionSort hashRel l₂) :=
    ((List.perm_insertionSort hashRel l₁).trans hp).trans
      (List.perm_insertionSort hashRel l₂).symm
  rw [eq_of_perm_of_keyLt hperm
    (hstrict (List.sorted_insertionSort hashRel l₁) hpwS₁)
    (hstrict (List.sorted_insertionSort hashRel l₂) hpwS₂)]

/-- The compound hypothesis of the amended C3: per identity key timestamps
are distinct, and equal hasher sort keys imply an equal identity key. -/
def fpOK (a b : TravelAdvisory) : Prop :=
  tsOK a b ∧ (hashKey a = hashKey b → identityKey a = identityKey b)

theorem fpOK_symm {a b : TravelAdvisory} (h : fpOK a b) : fpOK b a :=
  ⟨tsOK_symm h.1, fun hc => (h.2 hc.symm).symm⟩

instance : DecidableRel fpOK := fun _ _ => by
  unfold fpOK tsOK
  infer_instance

/-! ## C3: fingerprint determinism across arrival orders -/

/-- Two raw records with the same country code and identical update
timestamps but different country names. -/
def rawA1 : RawRecord :=
  ⟨"Aaaa - Level 3: Reconsider Travel", ["AA"], "", "L1", "2024-01-02T03:04:05"⟩

def rawA2 : RawRecord :=
  ⟨"Abbb - Level 3: Reconsider Travel", ["AA"], "", "L2", "2024-01-02T03:04:05"⟩

/-- Counterexample for C3 as stated: the two arrival orders of the same raw
record set produce different content fingerprints, because at exactly equal
duplicate timestamps the dedup survivor depends on arrival order. -/
theorem fingerprint_arrival_order_dependent :
    [rawA1, rawA2].Perm [rawA2, rawA1]
    ∧ pipelineFingerprint dtFix [rawA1, rawA2]
        ≠ pipelineFingerprint dtFix [rawA2, rawA1] := by
  constructor
  · decide
  · decide

/-- C3 (amended): the pipeline's content fingerprint is identical across any
two arrival-order permutations of the raw records, provided that among the
successfully parsed advisories (i) two records sharing an identity key never
carry equal last-updated timestamps and (ii) records with an equal
code-or-name hasher sort key share an identity key.  (At exactly equal
duplicate timestamps the survivor — and hence the fingerprint — can depend
on arrival order.) -/
theorem fingerprint_perm_invariant (now : DateTime)
    (raws raws' : List RawRecord) (hperm : raws.Perm raws')
    (hpw : (raws.filterMap (parse_advisory now)).Pairwise fpOK) :
    pipelineFingerprint now raws = pipelineFingerprint now raws' := by
  unfold pipelineFingerprint
  dsimp only
  have hpparsed : (raws.filterMap (parse_advisory now)).Perm
      (raws'.filterMap (parse_advisory now)) := hperm.filterMap _
  have htspw : (raws.filterMap (parse_advisory now)).Pairwise tsOK :=
    hpw.imp (fun h => h.1)
  have hS : ((deduplicate_advisories (raws.filterMap (parse_advisory now))).1).Perm
      ((deduplicate_advisories (raws'.filterMap (parse_advisory now))).1) :=
    dedup_values_perm hpparsed htspw
  set S := (deduplicate_advisories (raws.filterMap (parse_advisory now))).1 with hSdef
  set S' := (deduplicate_advisories (raws'.filterMap (parse_advisory now))).1 with hSdef'
  have hU : ((filter_high_risk S).1 ++ (filter_high_risk S).2).Perm
      ((filter_high_risk S').1 ++ (filter_high_risk S').2) := by
    refine (filter_high_risk_append_perm S).trans
      (List.Perm.trans ?_ (filter_high_risk_append_perm S').symm)
    exact (hS.filter prohB).append (hS.filter hrB)
  have hkeys := dedup_values_pairwise_keys (raws.filterMap (parse_advisory now))
  have hhash : S.Pairwise (fun a b => hashKey a ≠ hashKey b) := by
    refine hkeys.imp_of_mem ?_
    intro a b ha hb hne hcon
    have haP : a ∈ raws.filterMap (parse_advisory now) := dedup_values_mem_src ha
    have hbP : b ∈ raws.filterMap (parse_advisory now) := dedup_values_mem_src hb
    have hab : a ≠ b := fun hc => hne (hc ▸ rfl)
    have := List.Pairwise.forall (fun _ _ h => fpOK_symm h) hpw haP hbP hab
    exact hne (this.2 hcon)
  have hhashU := filter_high_risk_append_pairwise (fun h hc => h hc.symm) hhash
  exact compute_data_hash_eq_of_perm hU hhashU

/-- Distinct-key fixtures for the amended C3. -/
def rawB1 : RawRecord :=
  ⟨"Bbbb - Level 3: Reconsider Travel", ["BB"], "", "L3", "2024-03-04T05:06:07"⟩

def rawB2 : RawRecord :=
  ⟨"Cccc - Level 4: Do Not Travel", ["CC"], "", "L4", "2024-03-05T06:07:08"⟩

/-- Witness for C3 (amended): two orders of a record set with distinct
identity keys fingerprint identically. -/
theorem fingerprint_perm_invariant_instance :
    pipelineFingerprint dtFix [rawB1, rawB2]
      = pipelineFingerprint dtFix [rawB2, rawB1] :=
  fingerprint_perm_invariant dtFix [rawB1, rawB2] [rawB2, rawB1]
    (by decide) (by decide)

/-! ## Lemmas: the title-parser pattern on well-shaped headings -/

theorem mem_descTo0 {m k : Nat} : k ∈ descTo0 m ↔ k ≤ m := by
  induction m with
  | zero => simp [descTo0]
  | succ n ih =>
    rw [descTo0]
    simp only [List.mem_cons, ih]
    omega

theorem firstSome_none {α : Type} {f : Nat → Option α} :
    ∀ {lst : List Nat}, (∀ k ∈ lst, f k = none) → firstSome f lst = none := by
  intro lst
  induction lst with
  | nil => intro _; rfl
  | cons n ns ih =>
    intro h
    rw [firstSome, h n (List.mem_cons_self n ns)]
    exact ih (fun k hk => h k (List.mem_cons_of_mem n hk))

theorem firstSome_ascAux {α : Type} {f : Nat → Option α} :
    ∀ (c s n : Nat) (r : α), s ≤ n → n < s + c →
    (∀ k, s ≤ k → k < n → f k = none) → f n = some r →
    firstSome f (ascAux s c) = some r := by
  intro c
  induction c with
  | zero =>
    intro s n r h1 h2 _ _
    omega
  | succ c ih =>
    intro s n r h1 h2 hfail hn
    rw [ascAux, firstSome]
    by_cases hsn : s = n
    · rw [hsn, hn]
    · rw [hfail s (le_refl s) (by omega)]
      exact ih (s + 1) n r (by omega) (by omega) (fun k hk1 hk2 => hfail k (by omega) hk2) hn

theorem takeWhile_append_all {p : Char → Bool} :
    ∀ {pre l : List Char}, (∀ c ∈ pre, p c = true) →
    List.takeWhile p (pre ++ l) = pre ++ List.takeWhile p l := by
  intro pre
  induction pre with
  | nil => intro l _; rfl
  | cons c cs ih =>
    intro l h
    rw [List.cons_append, List.takeWhile_cons, if_pos (h c (List.mem_cons_self c cs))]
    rw [ih (fun c' hc' => h c' (List.mem_cons_of_mem c hc'))]
    rfl

theorem dropWhile_append_of_ne_nil {p : Char → Bool} :
    ∀ {a b : List Char}, List.dropWhile p a ≠ [] →
    List.dropWhile p (a ++ b) = List.dropWhile p a ++ b := by
  intro a
  induction a with
  | nil => intro b h; exact absurd rfl h
  | cons c cs ih =>
    intro b h
    by_cases hc : p c = true
    · have hlhs : List.dropWhile p ((c :: cs) ++ b) = List.dropWhile p (cs ++ b) := by
        rw [List.cons_append, List.dropWhile_cons, if_pos hc]
      have hrhs : List.dropWhile p (c :: cs) = List.dropWhile p cs := by
        rw [List.dropWhile_cons, if_pos hc]
      rw [hlhs, hrhs]
      rw [hrhs] at h
      exact ih h
    · have hlhs : List.dropWhile p ((c :: cs) ++ b) = c :: (cs ++ b) := by
        rw [List.cons_append, List.dropWhile_cons, if_neg hc]
      have hrhs : List.dropWhile p (c :: cs) = c :: cs := by
        rw [List.dropWhile_cons, if_neg hc]
      rw [hlhs, hrhs]
      rfl

theorem one_fail {p : Char → Bool} {cap : Option Nat} {ts : List RTok}
    {s : List Char} (h : ∀ c, s.head? = some c → p c = false) :
    tmatch (.one p cap :: ts) s = none := by
  cases s with
  | nil => rfl
  | cons c cs =>
    rw [tmatch]
    rw [h c rfl]
    simp

/-- The tail of the title pattern after the lazy group:
`\s*-\s*Level\s*(\d)` (with `Level` case-insensitive). -/
def titleToks2 : List RTok :=
  [RTok.star pyIsSpace, RTok.one (fun c => c == '-') none, RTok.star pyIsSpace]
  ++ litToksCI "level"
  ++ [RTok.star pyIsSpace, RTok.one digitP (some 2)]

theorem titleToks_eq : titleToks = RTok.plusL dotP (some 1) :: titleToks2 := rfl

theorem digitP_not_space {c : Char} (hd : digitP c = true) : pyIsSpace c = false := by
  unfold digitP at hd
  simp only [Bool.and_eq_true, decide_eq_true_eq] at hd
  cases hs : pyIsSpace c
  · rfl
  · exfalso
    unfold pyIsSpace pySpaceNats at hs
    simp at hs
    omega

/-- If the first non-whitespace character is not a hyphen (or there is
none), the tail pattern fails. -/
theorem tmatch_toks2_none {s : List Char}
    (h : ∀ c, (s.dropWhile pyIsSpace).head? = some c → c ≠ '-') :
    tmatch titleToks2 s = none := by
  show tmatch (RTok.star pyIsSpace :: _) s = none
  rw [tmatch]
  apply firstSome_none
  intro k hk
  have hkm : k ≤ (s.takeWhile pyIsSpace).length := mem_descTo0.mp hk
  apply one_fail
  intro c hc
  have hsplit : s = s.takeWhile pyIsSpace ++ s.dropWhile pyIsSpace :=
    (List.takeWhile_append_dropWhile pyIsSpace s).symm
  by_cases hlt : k < (s.takeWhile pyIsSpace).length
  · -- still inside the whitespace run
    have hdrop : s.drop k = (s.takeWhile pyIsSpace).drop k ++ s.dropWhile pyIsSpace := by
      conv_lhs => rw [hsplit]
      exact List.drop_append_of_le_length (by omega)
    have hne : (s.takeWhile pyIsSpace).drop k ≠ [] := by
      intro hcon
      have := congrArg List.length hcon
      simp at this
      omega
    rcases hd : (s.takeWhile pyIsSpace).drop k with _ | ⟨c', cs'⟩
    · exact absurd hd hne
    · have hc' : c' ∈ s.takeWhile pyIsSpace := by
        have : c' ∈ (s.takeWhile pyIsSpace).drop k := by rw [hd]; exact List.mem_cons_self _ _
        exact (List.drop_suffix k _).sublist.mem this
      have hws : pyIsSpace c' = true := List.mem_takeWhile_imp hc'
      rw [hdrop, hd] at hc
      simp only [List.cons_append, List.head?_cons, Option.some.injEq] at hc
      rw [← hc]
      cases hb : (c' == '-')
      · rfl
      · exfalso
        have hceq : c' = '-' := by simpa using hb
        rw [hceq] at hws
        exact absurd hws (by decide)
  · -- exactly at the first non-whitespace character
    have hkm' : k = (s.takeWhile pyIsSpace).length := by omega
    have hdrop : s.drop k = s.dropWhile pyIsSpace := by
      conv_lhs => rw [hsplit, hkm']
      exact List.drop_left _ _
    rw [hdrop] at hc
    have := h c hc
    cases hb : (c == '-')
    · rfl
    · exact absurd (by simpa using hb) this

/-! ### Character classes of the title pattern -/

theorem ws_lower_self {c : Char} (h : pyIsSpace c = true) : pyLowerChar c = c := by
  have hm : c.toNat ∈ pySpaceNats := by
    unfold pyIsSpace at h
    simpa using h
  unfold pyLowerChar
  rw [if_neg]
  intro hcon
  unfold pySpaceNats at hm
  simp at hm
  omega

theorem ws_not_dash {c : Char} (h : pyIsSpace c = true) : (c == '-') = false := by
  cases hb : (c == '-')
  · rfl
  · exfalso
    have hc : c = '-' := by simpa using hb
    rw [hc] at h
    exact absurd h (by decide)

theorem ws_not_lower_l {c : Char} (h : pyIsSpace c = true) :
    (pyLowerChar c == 'l') = false := by
  rw [ws_lower_self h]
  cases hb : (c == 'l')
  · rfl
  · exfalso
    have hc : c = 'l' := by simpa using hb
    rw [hc] at h
    exact absurd h (by decide)

theorem ws_not_digit {c : Char} (h : pyIsSpace c = true) : digitP c = false := by
  cases hb : digitP c
  · rfl
  · rw [digitP_not_space hb] at h
    exact absurd h (by simp)

theorem lower_l_not_space {c : Char} (h : pyLowerChar c = 'l') :
    pyIsSpace c = false := by
  unfold pyLowerChar at h
  by_cases hb : 65 ≤ c.toNat ∧ c.toNat ≤ 90
  · cases hs : pyIsSpace c
    · rfl
    · exfalso
      have hm : c.toNat ∈ pySpaceNats := by
        unfold pyIsSpace at hs
        simpa using hs
      unfold pySpaceNats at hm
      simp at hm
      omega
  · rw [if_neg hb] at h
    rw [h]
    decide

/-! ### Engine evaluation lemmas -/

theorem tmatch_star_eq (p : Char → Bool) (ts : List RTok) (s : List Char) :
    tmatch (.star p :: ts) s
      = firstSome (fun n => tmatch ts (s.drop n))
          (descTo0 (s.takeWhile p).length) := rfl

theorem tmatch_one_cons (p : Char → Bool) (cap : Option Nat) (ts : List RTok)
    (c : Char) (s : List Char) :
    tmatch (.one p cap :: ts) (c :: s)
      = if p c then (tmatch ts s).map (addCap cap [c]) else none := rfl

theorem map_addCap_none {cs : List Char} {o : Option (List Char × Caps)} :
    o.map (addCap none cs) = o := by
  cases o <;> rfl

theorem firstSome_cons_some {α : Type} {f : Nat → Option α} {n : Nat}
    {l : List Nat} {r : α} (h : f n = some r) :
    firstSome f (n :: l) = some r := by
  rw [firstSome, h]

theorem firstSome_descTo0_some {α : Type} {f : Nat → Option α} {m : Nat} {r : α}
    (h : f m = some r) : firstSome f (descTo0 m) = some r := by
  cases m with
  | zero => rw [descTo0]; exact firstSome_cons_some h
  | succ n => rw [descTo0]; exact firstSome_cons_some h

theorem drop_takeWhile_length {p : Char → Bool} (s : List Char) :
    s.drop (s.takeWhile p).length = s.dropWhile p := by
  have h := List.takeWhile_append_dropWhile p s
  calc s.drop (s.takeWhile p).length
      = (s.takeWhile p ++ s.dropWhile p).drop (s.takeWhile p).length := by rw [h]
    _ = s.dropWhile p := List.drop_left _ _

/-- A greedy `*` fails when every candidate repetition count fails. -/
theorem star_fail_of {p : Char → Bool} {ts : List RTok} {s : List Char}
    (hrun : ∀ k, k < (s.takeWhile p).length → tmatch ts (s.drop k) = none)
    (hend : tmatch ts (s.dropWhile p) = none) :
    tmatch (.star p :: ts) s = none := by
  rw [tmatch_star_eq]
  apply firstSome_none
  intro k hk
  have hkm : k ≤ (s.takeWhile p).length := mem_descTo0.mp hk
  by_cases hlt : k < (s.takeWhile p).length
  · exact hrun k hlt
  · have hkeq : k = (s.takeWhile p).length := by omega
    rw [hkeq, drop_takeWhile_length]
    exact hend

/-- A candidate that stops strictly inside the `p`-run leaves a `p`-character
in front; a following single-token class rejecting `p`-characters fails. -/
theorem run_candidates_die {p q : Char → Bool} {cap : Option Nat}
    {ts : List RTok} {s : List Char} (hpq : ∀ c, p c = true → q c = false) :
    ∀ k, k < (s.takeWhile p).length →
    tmatch (.one q cap :: ts) (s.drop k) = none := by
  intro k hk
  apply one_fail
  intro c hc
  have hsplit : s = s.takeWhile p ++ s.dropWhile p :=
    (List.takeWhile_append_dropWhile p s).symm
  have hdrop : s.drop k = (s.takeWhile p).drop k ++ s.dropWhile p := by
    conv_lhs => rw [hsplit]
    exact List.drop_append_of_le_length (by omega)
  have hne2 : (s.takeWhile p).drop k ≠ [] := by
    intro hcon
    have := congrArg List.length hcon
    simp at this
    omega
  rcases hd : (s.takeWhile p).drop k with _ | ⟨c', cs'⟩
  · exact absurd hd hne2
  · have hc' : c' ∈ s.takeWhile p := by
      have hmem : c' ∈ (s.takeWhile p).drop k := by
        rw [hd]
        exact List.mem_cons_self _ _
      exact (List.drop_suffix k _).sublist.mem hmem
    have hws : p c' = true := List.mem_takeWhile_imp hc'
    rw [hdrop, hd] at hc
    simp only [List.cons_append, List.head?_cons, Option.some.injEq] at hc
    rw [← hc]
    exact hpq c' hws

theorem takeWhile_all_of {p : Char → Bool} {l : List Char}
    (h : ∀ c ∈ l, p c = true) : l.takeWhile p = l := by
  induction l with
  | nil => rfl
  | cons c cs ih =>
    rw [List.takeWhile_cons, if_pos (h c (List.mem_cons_self c cs))]
    rw [ih (fun c' hc' => h c' (List.mem_cons_of_mem c hc'))]

/-- A greedy `*` consuming exactly a full `p`-run, after which the rest of
the pattern succeeds, succeeds with that continuation. -/
theorem star_succeed {p : Char → Bool} {ts : List RTok} {pre l : List Char}
    {r : List Char × Caps}
    (hpre : ∀ c ∈ pre, p c = true)
    (hl : ∀ c, l.head? = some c → p c = false)
    (h : tmatch ts l = some r) :
    tmatch (.star p :: ts) (pre ++ l) = some r := by
  rw [tmatch_star_eq]
  have htw : (pre ++ l).takeWhile p = pre := by
    rw [takeWhile_append_all hpre]
    cases l with
    | nil =>
      simp
    | cons c cs =>
      rw [List.takeWhile_cons, if_neg (by simp [hl c rfl]), List.append_nil]
  rw [htw]
  apply firstSome_descTo0_some
  show tmatch ts ((pre ++ l).drop pre.length) = some r
  rw [List.drop_left]
  exact h

theorem one_succeed {p : Char → Bool} {cap : Option Nat} {ts : List RTok}
    {c : Char} {s : List Char} {r : List Char × Caps}
    (hc : p c = true) (h : tmatch ts s = some r) :
    tmatch (.one p cap :: ts) (c :: s) = some (addCap cap [c] r) := by
  rw [tmatch_one_cons, if_pos hc, h]
  rfl

/-- A case-insensitive literal consumes exactly its own length, comparing
lowercased input against the (lowercase) literal. -/
theorem litCI_chain : ∀ (wd : List Char) (ts : List RTok) (l : List Char),
    tmatch ((wd.map fun c => RTok.one (fun x => pyLowerChar x == c) none) ++ ts) l
      = if pyLowerL (l.take wd.length) = wd ∧ wd.length ≤ l.length
        then tmatch ts (l.drop wd.length) else none := by
  intro wd
  induction wd with
  | nil =>
    intro ts l
    simp [pyLowerL]
  | cons c w ih =>
    intro ts l
    cases l with
    | nil =>
      have hncond : ¬(pyLowerL (([] : List Char).take (c :: w).length) = c :: w
          ∧ (c :: w).length ≤ ([] : List Char).length) := by
        intro hcon
        have h2 := hcon.2
        simp at h2
      rw [if_neg hncond]
      rfl
    | cons x l' =>
      rw [List.map_cons, List.cons_append, tmatch_one_cons]
      have htake : pyLowerL ((x :: l').take (c :: w).length)
          = pyLowerChar x :: pyLowerL (l'.take w.length) := by
        simp [pyLowerL]
      by_cases hx : pyLowerChar x = c
      · rw [if_pos (by simp [hx]), map_addCap_none, ih ts l']
        by_cases hcond : pyLowerL (l'.take w.length) = w ∧ w.length ≤ l'.length
        · have houter : pyLowerL ((x :: l').take (c :: w).length) = c :: w
              ∧ (c :: w).length ≤ (x :: l').length := by
            constructor
            · rw [htake, hx, hcond.1]
            · have := hcond.2
              simp only [List.length_cons]
              omega
          rw [if_pos hcond, if_pos houter]
          rfl
        · have houter : ¬(pyLowerL ((x :: l').take (c :: w).length) = c :: w
              ∧ (c :: w).length ≤ (x :: l').length) := by
            intro hcon
            apply hcond
            have h1 := hcon.1
            rw [htake] at h1
            simp only [List.cons.injEq] at h1
            have h2 := hcon.2
            simp only [List.length_cons] at h2
            exact ⟨h1.2, by omega⟩
          rw [if_neg hcond, if_neg houter]
      · have houter : ¬(pyLowerL ((x :: l').take (c :: w).length) = c :: w
            ∧ (c :: w).length ≤ (x :: l').length) := by
          intro hcon
          have h1 := hcon.1
          rw [htake] at h1
          simp only [List.cons.injEq] at h1
          exact hx h1.1
        rw [if_neg (by simp [hx]), if_neg houter]

/-! ### The separator tail: complete success and failure analysis -/

/-- Head of a character list is an ASCII digit. -/
def digitHead : List Char → Bool
  | [] => false
  | c :: _ => digitP c

/-- After a hyphen: does the continuation have the shape `\s*` then the
letters `level` in some case then `\s*` then a digit?  Exactly when it does,
the tail pattern can complete at that hyphen. -/
def levelTailB (t : List Char) : Bool :=
  (pyLowerL ((t.dropWhile pyIsSpace).take 5) == "level".data)
  && digitHead (((t.dropWhile pyIsSpace).drop 5).dropWhile pyIsSpace)

/-- If the first non-whitespace character is a hyphen but the continuation
after it lacks the `level`-then-digit shape, the tail pattern fails. -/
theorem tmatch_toks2_none_dash {s t : List Char}
    (hs : s.dropWhile pyIsSpace = '-' :: t)
    (hlt : levelTailB t = false) :
    tmatch titleToks2 s = none := by
  show tmatch (RTok.star pyIsSpace :: RTok.one (fun c => c == '-') none
      :: RTok.star pyIsSpace :: (litToksCI "level"
      ++ [RTok.star pyIsSpace, RTok.one digitP (some 2)])) s = none
  apply star_fail_of
  · exact run_candidates_die (fun c hc => ws_not_dash hc)
  · rw [hs, tmatch_one_cons, if_pos (by decide), map_addCap_none]
    apply star_fail_of
    · exact run_candidates_die (fun c hc => ws_not_lower_l hc)
    · simp only [litToksCI]
      rw [litCI_chain]
      have h5 : ("level".data).length = 5 := rfl
      rw [h5]
      split
      · next hcond =>
        have hci : (pyLowerL ((t.dropWhile pyIsSpace).take 5)
            == "level".data) = true := beq_iff_eq.mpr hcond.1
        have hdig : digitHead
            (((t.dropWhile pyIsSpace).drop 5).dropWhile pyIsSpace) = false := by
          unfold levelTailB at hlt
          rw [hci] at hlt
          simpa using hlt
        apply star_fail_of
        · exact run_candidates_die (fun c hc => ws_not_digit hc)
        · apply one_fail
          intro c hc
          rcases hu : ((t.dropWhile pyIsSpace).drop 5).dropWhile pyIsSpace
            with _ | ⟨u0, us⟩
          · rw [hu] at hc
            simp at hc
          · rw [hu] at hc hdig
            simp only [List.head?_cons, Option.some.injEq] at hc
            rw [← hc]
            exact hdig
      · rfl

/-- The generalized separator: arbitrary whitespace runs around the hyphen,
the literal `level` in any letter case, arbitrary whitespace, then the level
digit — exactly `\s*-\s*Level\s*(\d)` under `re.IGNORECASE`. -/
theorem tmatch_toks2_sep_gen {w₁ w₂ w₃ lvl : List Char} {d : Char}
    {rest : List Char}
    (hw₁ : ∀ c ∈ w₁, pyIsSpace c = true) (hw₂ : ∀ c ∈ w₂, pyIsSpace c = true)
    (hw₃ : ∀ c ∈ w₃, pyIsSpace c = true)
    (hlvl : pyLowerL lvl = "level".data) (hd : digitP d = true) :
    tmatch titleToks2 (w₁ ++ '-' :: (w₂ ++ (lvl ++ (w₃ ++ d :: rest))))
      = some (rest, [(2, [d])]) := by
  have hlen : lvl.length = 5 := by
    have h := congrArg List.length hlvl
    rw [pyLowerL, List.length_map] at h
    rw [h]
    rfl
  have h1 : tmatch [RTok.one digitP (some 2)] (d :: rest)
      = some (rest, [(2, [d])]) :=
    @one_succeed digitP (some 2) [] d rest (rest, []) hd rfl
  have h2 : tmatch [RTok.star pyIsSpace, RTok.one digitP (some 2)]
      (w₃ ++ d :: rest) = some (rest, [(2, [d])]) := by
    apply star_succeed hw₃ ?_ h1
    intro c hc
    simp only [List.head?_cons, Option.some.injEq] at hc
    rw [← hc]
    exact digitP_not_space hd
  have h3 : tmatch (litToksCI "level"
      ++ [RTok.star pyIsSpace, RTok.one digitP (some 2)])
      (lvl ++ (w₃ ++ d :: rest)) = some (rest, [(2, [d])]) := by
    simp only [litToksCI]
    rw [litCI_chain]
    have h5 : ("level".data).length = 5 := rfl
    rw [h5]
    have htake : (lvl ++ (w₃ ++ d :: rest)).take 5 = lvl := by
      rw [← hlen]
      exact List.take_left _ _
    have hdrop2 : (lvl ++ (w₃ ++ d :: rest)).drop 5 = w₃ ++ d :: rest := by
      rw [← hlen]
      exact List.drop_left _ _
    have hle : 5 ≤ (lvl ++ (w₃ ++ d :: rest)).length := by
      rw [List.length_append, hlen]
      omega
    rw [if_pos ⟨by rw [htake]; exact hlvl, hle⟩, hdrop2]
    exact h2
  have h4 : tmatch (RTok.star pyIsSpace :: (litToksCI "level"
      ++ [RTok.star pyIsSpace, RTok.one digitP (some 2)]))
      (w₂ ++ (lvl ++ (w₃ ++ d :: rest))) = some (rest, [(2, [d])]) := by
    apply star_succeed hw₂ ?_ h3
    intro c hc
    rcases hl0 : lvl with _ | ⟨c0, cs0⟩
    · rw [hl0] at hlen
      simp at hlen
    · rw [hl0] at hc
      simp only [List.cons_append, List.head?_cons, Option.some.injEq] at hc
      rw [hl0] at hlvl
      have hlvl' : pyLowerChar c0 :: pyLowerL cs0 = 'l' :: "evel".data := hlvl
      have hcl : pyLowerChar c0 = 'l' := by
        have h := hlvl'
        simp only [List.cons.injEq] at h
        exact h.1
      rw [← hc]
      exact lower_l_not_space hcl
  have h5m : tmatch (RTok.one (fun c => c == '-') none :: RTok.star pyIsSpace
      :: (litToksCI "level" ++ [RTok.star pyIsSpace, RTok.one digitP (some 2)]))
      ('-' :: (w₂ ++ (lvl ++ (w₃ ++ d :: rest)))) = some (rest, [(2, [d])]) := by
    rw [tmatch_one_cons, if_pos (by decide), h4, map_addCap_none]
  show tmatch (RTok.star pyIsSpace :: RTok.one (fun c => c == '-') none
      :: RTok.star pyIsSpace :: (litToksCI "level"
      ++ [RTok.star pyIsSpace, RTok.one digitP (some 2)]))
      (w₁ ++ '-' :: (w₂ ++ (lvl ++ (w₃ ++ d :: rest)))) = some (rest, [(2, [d])])
  apply star_succeed hw₁ ?_ h5m
  intro c hc
  simp only [List.head?_cons, Option.some.injEq] at hc
  rw [← hc]
  decide

theorem tmatch_plusL (p : Char → Bool) (cap : Option Nat) (ts : List RTok)
    (s : List Char) :
    tmatch (.plusL p cap :: ts) s
      = firstSome (fun n => (tmatch ts (s.drop n)).map (addCap cap (s.take n)))
          (ascFrom1 (s.takeWhile p).length) := rfl

theorem dropWhile_cons_eq_self {p : Char → Bool} {c : Char} {t : List Char}
    (h : List.dropWhile p (c :: t) = c :: t) : p c = false := by
  by_cases hc : p c = true
  · exfalso
    rw [List.dropWhile_cons, if_pos hc] at h
    have h1 := congrArg List.length h
    have h2 := (@List.dropWhile_suffix _ t p).length_le
    simp at h1
    omega
  · simpa using hc

theorem trimmed_dropWhile {xs : List Char} (htrim : pyStripL xs = xs) :
    xs.dropWhile pyIsSpace = xs := by
  have hsuf : xs.dropWhile pyIsSpace <:+ xs := List.dropWhile_suffix pyIsSpace
  apply hsuf.eq_of_length
  have h1 : (pyStripL xs).length = xs.length := by rw [htrim]
  unfold pyStripL at h1
  have h2 := (@List.dropWhile_suffix _ ((xs.dropWhile pyIsSpace).reverse) pyIsSpace).length_le
  have h3 := hsuf.length_le
  simp at h1 h2
  omega

theorem trimmed_reverse_dropWhile {xs : List Char} (htrim : pyStripL xs = xs) :
    xs.reverse.dropWhile pyIsSpace = xs.reverse := by
  have hdw := trimmed_dropWhile htrim
  unfold pyStripL at htrim
  rw [hdw] at htrim
  have := congrArg List.reverse htrim
  simpa using this

theorem dropWhile_append_all {p : Char → Bool} :
    ∀ {pre l : List Char}, (∀ c ∈ pre, p c = true) →
    List.dropWhile p (pre ++ l) = List.dropWhile p l := by
  intro pre
  induction pre with
  | nil => intro l _; rfl
  | cons c cs ih =>
    intro l h
    rw [List.cons_append, List.dropWhile_cons, if_pos (h c (List.mem_cons_self c cs))]
    exact ih (fun c' hc' => h c' (List.mem_cons_of_mem c hc'))

/-- Every nonempty suffix of a trimmed string contains a non-whitespace
character (its last one). -/
theorem suffix_has_nonspace {xs : List Char} (htrim : pyStripL xs = xs) :
    ∀ u, u <:+ xs → u ≠ [] → ∃ c ∈ u, pyIsSpace c = false := by
  intro u hsuf hune
  have hrdw := trimmed_reverse_dropWhile htrim
  rcases hrev : u.reverse with _ | ⟨c, t⟩
  · exact absurd (by simpa using congrArg List.reverse hrev) hune
  · refine ⟨c, ?_, ?_⟩
    · have hmem : c ∈ u.reverse := by
        rw [hrev]
        exact List.mem_cons_self _ _
      simpa using hmem
    · obtain ⟨pre, hpre⟩ := hsuf
      have hxsrev : xs.reverse = c :: (t ++ pre.reverse) := by
        rw [← hpre, List.reverse_append, hrev]
        rfl
      rw [hxsrev] at hrdw
      exact dropWhile_cons_eq_self hrdw

theorem spill_char_impossible {c0 e : Char}
    (he : e.toNat = 101 ∨ e.toNat = 118 ∨ e.toNat = 108)
    (hS : pyIsSpace c0 = true ∨ c0 = '-') (hc : pyLowerChar c0 = e) : False := by
  rcases hS with hws | hdash
  · rw [ws_lower_self hws] at hc
    rw [hc] at hws
    have hm : e.toNat ∈ pySpaceNats := by
      unfold pyIsSpace at hws
      simpa using hws
    unfold pySpaceNats at hm
    simp at hm
    omega
  · subst hdash
    have hdl : pyLowerChar '-' = '-' := by decide
    rw [hdl] at hc
    rw [← hc] at he
    rcases he with h | h | h <;> exact absurd h (by decide)

/-- Appending the real separator to the post-hyphen continuation of a hyphen
inside the (trimmed) country part cannot create a `level`-then-digit shape
that was not already present: the separator's first character is whitespace
or the hyphen itself, and any digit it contributes sits behind that. -/
theorem levelTailB_spill {t S S' : List Char}
    (hF : ∀ u, u <:+ t → u ≠ [] → ∃ c ∈ u, pyIsSpace c = false)
    (hSdw : S.dropWhile pyIsSpace = '-' :: S')
    (hShead : ∀ c, S.head? = some c → (pyIsSpace c = true ∨ c = '-'))
    (ht : levelTailB t = false) :
    levelTailB (t ++ S) = false := by
  by_cases htnil : t = []
  · subst htnil
    have hci : (pyLowerL (('-' :: S').take 5) == "level".data) = false := by
      cases hb : (pyLowerL (('-' :: S').take 5) == "level".data)
      · rfl
      · exfalso
        have heq : pyLowerL (('-' :: S').take 5) = "level".data := by
          simpa using hb
        have h0 := congrArg List.head? heq
        rw [List.take_succ_cons] at h0
        simp only [pyLowerL, List.map_cons, List.head?_cons] at h0
        have h0' : pyLowerChar '-' = 'l' := by simpa using h0
        exact absurd h0' (by decide)
    unfold levelTailB
    rw [List.nil_append, hSdw, hci]
    simp
  · have hdwt_ne : t.dropWhile pyIsSpace ≠ [] := by
      intro hcon
      have hallws := List.dropWhile_eq_nil_iff.mp hcon
      obtain ⟨c, hcmem, hcws⟩ := hF t (List.suffix_refl t) htnil
      rw [hallws c hcmem] at hcws
      simp at hcws
    unfold levelTailB
    rw [dropWhile_append_of_ne_nil hdwt_ne]
    by_cases hlen5 : 5 ≤ (t.dropWhile pyIsSpace).length
    · rw [List.take_append_of_le_length hlen5,
          List.drop_append_of_le_length hlen5]
      unfold levelTailB at ht
      cases hci : (pyLowerL ((t.dropWhile pyIsSpace).take 5) == "level".data)
      · simp
      · rw [hci] at ht
        simp only [Bool.true_and] at ht ⊢
        by_cases hd5 : (t.dropWhile pyIsSpace).drop 5 = []
        · rw [hd5, List.nil_append, hSdw]
          show digitP '-' = false
          decide
        · have hd5dw : ((t.dropWhile pyIsSpace).drop 5).dropWhile pyIsSpace
              ≠ [] := by
            intro hcon
            have hallws := List.dropWhile_eq_nil_iff.mp hcon
            have hsuf : (t.dropWhile pyIsSpace).drop 5 <:+ t :=
              (List.drop_suffix 5 _).trans (List.dropWhile_suffix pyIsSpace)
            obtain ⟨c, hcmem, hcws⟩ := hF _ hsuf hd5
            rw [hallws c hcmem] at hcws
            simp at hcws
          rw [dropWhile_append_of_ne_nil hd5dw]
          rcases hu : ((t.dropWhile pyIsSpace).drop 5).dropWhile pyIsSpace
            with _ | ⟨u0, us⟩
          · exact absurd hu hd5dw
          · rw [hu] at ht
            rw [List.cons_append]
            exact ht
    · have hlen1 : 1 ≤ (t.dropWhile pyIsSpace).length := by
        rcases hx : t.dropWhile pyIsSpace with _ | ⟨a, b⟩
        · exact absurd hx hdwt_ne
        · simp
      cases S with
      | nil =>
        rw [show List.dropWhile pyIsSpace ([] : List Char) = [] from rfl]
          at hSdw
        exact absurd hSdw (by simp)
      | cons s0 S0 =>
        have hs0 : pyIsSpace s0 = true ∨ s0 = '-' := hShead s0 rfl
        have hci : (pyLowerL ((t.dropWhile pyIsSpace ++ s0 :: S0).take 5)
            == "level".data) = false := by
          cases hb : (pyLowerL ((t.dropWhile pyIsSpace ++ s0 :: S0).take 5)
              == "level".data)
          · rfl
          · exfalso
            have heq : pyLowerL ((t.dropWhile pyIsSpace ++ s0 :: S0).take 5)
                = "level".data := by simpa using hb
            rw [List.take_append_eq_append_take,
                List.take_of_length_le (by omega)] at heq
            set n := (t.dropWhile pyIsSpace).length with hn
            have hpos : 5 - n = (4 - n) + 1 := by omega
            rw [hpos, List.take_succ_cons] at heq
            simp only [pyLowerL, List.map_append, List.map_cons] at heq
            have hdropn := congrArg (List.drop n) heq
            have hlenmap : ((t.dropWhile pyIsSpace).map pyLowerChar).length
                = n := by
              rw [List.length_map]
            rw [List.drop_left' hlenmap] at hdropn
            have hh := congrArg List.head? hdropn
            simp only [List.head?_cons] at hh
            have hle4 : n ≤ 4 := by omega
            interval_cases n
            · have hr : (("level".data).drop 1).head? = some 'e' := rfl
              rw [hr] at hh
              exact @spill_char_impossible s0 'e' (by decide) hs0
                (by simpa using hh)
            · have hr : (("level".data).drop 2).head? = some 'v' := rfl
              rw [hr] at hh
              exact @spill_char_impossible s0 'v' (by decide) hs0
                (by simpa using hh)
            · have hr : (("level".data).drop 3).head? = some 'e' := rfl
              rw [hr] at hh
              exact @spill_char_impossible s0 'e' (by decide) hs0
                (by simpa using hh)
            · have hr : (("level".data).drop 4).head? = some 'l' := rfl
              rw [hr] at hh
              exact @spill_char_impossible s0 'l' (by decide) hs0
                (by simpa using hh)
        rw [hci]
        simp

/-- Core of the title-pattern analysis: for a trimmed, newline-free country
part with no internal `level`-separator shape, followed by any suffix whose
first non-whitespace character is a hyphen and on which the tail pattern
matches capturing the digit, the lazy group stops exactly at the end of the
country part. -/
theorem title_parser_core (xs SEP : List Char) (d : Char) (r : List Char)
    (htrim : pyStripL xs = xs) (hne : xs ≠ []) (hnl : '\n' ∉ xs)
    (hsep : ∀ j, j < xs.length → (xs.drop j).head? = some '-' →
      levelTailB (xs.drop j).tail = false)
    (hSdw : ∃ S', SEP.dropWhile pyIsSpace = '-' :: S')
    (hShead : ∀ c, SEP.head? = some c → (pyIsSpace c = true ∨ c = '-'))
    (hmatch : tmatch titleToks2 SEP = some (r, [(2, [d])])) :
    parse_level_from_title ⟨xs ++ SEP⟩ = (⟨xs⟩, d.toNat - 48) := by
  have hxslen : 0 < xs.length := List.length_pos.mpr hne
  have hrdw := trimmed_reverse_dropWhile htrim
  have hdot : ∀ c ∈ xs, dotP c = true := by
    intro c hc
    unfold dotP
    cases hb : (c != '\n')
    · exfalso
      have hcn : c = '\n' := by simpa using hb
      exact hnl (hcn ▸ hc)
    · rfl
  have hTW : List.takeWhile dotP (xs ++ SEP)
      = xs ++ List.takeWhile dotP SEP :=
    takeWhile_append_all hdot
  have hm : xs.length ≤ (List.takeWhile dotP (xs ++ SEP)).length := by
    rw [hTW]
    simp
  have hfail : ∀ k, 1 ≤ k → k < xs.length →
      tmatch titleToks2 ((xs ++ SEP).drop k) = none := by
    intro k h1 h2
    have hdropk : (xs ++ SEP).drop k = xs.drop k ++ SEP :=
      List.drop_append_of_le_length (Nat.le_of_lt h2)
    have hdkne : List.dropWhile pyIsSpace (xs.drop k) ≠ [] := by
      intro hcon
      have hallws : ∀ c ∈ xs.drop k, pyIsSpace c = true :=
        List.dropWhile_eq_nil_iff.mp hcon
      have hdkne2 : xs.drop k ≠ [] := by
        intro hzero
        have := congrArg List.length hzero
        simp at this
        omega
      obtain ⟨c, hcmem, hcws⟩ :=
        suffix_has_nonspace htrim (xs.drop k) (List.drop_suffix k xs) hdkne2
      rw [hallws c hcmem] at hcws
      simp at hcws
    rw [hdropk]
    rcases hdw2 : List.dropWhile pyIsSpace (xs.drop k) with _ | ⟨c0, t0⟩
    · exact absurd hdw2 hdkne
    · by_cases hc0 : c0 = '-'
      · subst hc0
        have hsuf : ('-' :: t0) <:+ xs := by
          rw [← hdw2]
          exact (List.dropWhile_suffix pyIsSpace).trans (List.drop_suffix k xs)
        obtain ⟨pre, hpre⟩ := hsuf
        have hj : xs.drop pre.length = '-' :: t0 := by
          rw [← hpre]
          exact List.drop_left _ _
        have hjlt : pre.length < xs.length := by
          have := congrArg List.length hpre
          simp at this
          omega
        have hlt0 : levelTailB t0 = false := by
          have h := hsep pre.length hjlt (by rw [hj]; rfl)
          rw [hj] at h
          simpa using h
        have hF : ∀ u, u <:+ t0 → u ≠ [] → ∃ c ∈ u, pyIsSpace c = false := by
          intro u hu hune
          have ht0xs : t0 <:+ xs := by
            have hcons : ('-' :: t0) <:+ xs := by
              rw [← hdw2]
              exact (List.dropWhile_suffix pyIsSpace).trans
                (List.drop_suffix k xs)
            exact (List.suffix_cons '-' t0).trans hcons
          exact suffix_has_nonspace htrim u (hu.trans ht0xs) hune
        obtain ⟨S', hS'⟩ := hSdw
        have hspill : levelTailB (t0 ++ SEP) = false :=
          levelTailB_spill hF hS' hShead hlt0
        apply tmatch_toks2_none_dash ?_ hspill
        rw [dropWhile_append_of_ne_nil hdkne, hdw2]
        rfl
      · apply tmatch_toks2_none
        intro c hc
        rw [dropWhile_append_of_ne_nil hdkne, hdw2] at hc
        simp only [List.cons_append, List.head?_cons, Option.some.injEq] at hc
        rw [← hc]
        exact hc0
  have hsucc : (tmatch titleToks2 ((xs ++ SEP).drop xs.length)).map
      (addCap (some 1) ((xs ++ SEP).take xs.length))
      = some (r, [(1, xs), (2, [d])]) := by
    rw [List.drop_left, List.take_left, hmatch]
    rfl
  unfold parse_level_from_title
  have hdata : (String.mk (xs ++ SEP)).data = xs ++ SEP := rfl
  rw [titleToks_eq, hdata, tmatch_plusL]
  simp only [ascFrom1]
  rw [firstSome_ascAux (List.takeWhile dotP (xs ++ SEP)).length
    1 xs.length (r, [(1, xs), (2, [d])]) (by omega) (by omega)
    (fun k hk1 hk2 => by rw [hfail k hk1 hk2]; rfl) hsucc]
  simp only [capGet, List.lookup]
  norm_num
  exact ⟨congrArg String.mk htrim, rfl⟩

/-- On a conventional heading — trimmed, newline-free country part with no
internal hyphen followed (modulo whitespace) by the letters `level` in some
case and a digit; hyphen framed by arbitrary whitespace; `Level` in any
letter case; a level digit — the title pattern matches with group 1 = the
country part and group 2 = the digit. -/
theorem title_parser_shape (xs w₁ w₂ lvl w₃ : List Char) (d : Char)
    (rest : List Char)
    (htrim : pyStripL xs = xs) (hne : xs ≠ []) (hnl : '\n' ∉ xs)
    (hsep : ∀ j, j < xs.length → (xs.drop j).head? = some '-' →
      levelTailB (xs.drop j).tail = false)
    (hw₁ : ∀ c ∈ w₁, pyIsSpace c = true) (hw₂ : ∀ c ∈ w₂, pyIsSpace c = true)
    (hw₃ : ∀ c ∈ w₃, pyIsSpace c = true)
    (hlvl : pyLowerL lvl = "level".data) (hd : digitP d = true) :
    parse_level_from_title
        ⟨xs ++ (w₁ ++ '-' :: (w₂ ++ (lvl ++ (w₃ ++ d :: rest))))⟩
      = (⟨xs⟩, d.toNat - 48) := by
  apply title_parser_core xs _ d rest htrim hne hnl hsep
  · exact ⟨w₂ ++ (lvl ++ (w₃ ++ d :: rest)), by
      rw [dropWhile_append_all hw₁, List.dropWhile_cons, if_neg (by decide)]⟩
  · intro c hc
    cases w₁ with
    | nil =>
      simp only [List.nil_append, List.head?_cons, Option.some.injEq] at hc
      exact Or.inr hc.symm
    | cons a as =>
      simp only [List.cons_append, List.head?_cons, Option.some.injEq] at hc
      refine Or.inl ?_
      rw [← hc]
      exact hw₁ a (List.mem_cons_self a as)
  · exact tmatch_toks2_sep_gen hw₁ hw₂ hw₃ hlvl hd

/-! ## C8: the title parser -/

/-- C8: a conventional heading `X - Level N: ...` — country part trimmed and
newline-free, with no internal hyphen that is followed (modulo whitespace) by
the letters `level` in some case and then a digit; the separator hyphen framed
by arbitrary whitespace runs; the word `Level` in any letter case; `N` a
single digit — parses to the country prefix `X` and the integer level; an
unmatched heading is returned unchanged with level 0 — both of the spec's
fixtures included. -/
theorem title_parser_spec :
    (∀ (xs w₁ w₂ lvl w₃ : List Char) (d : Char) (rest : List Char),
      pyStripL xs = xs → xs ≠ [] → '\n' ∉ xs →
      (∀ j, j < xs.length → (xs.drop j).head? = some '-' →
        levelTailB (xs.drop j).tail = false) →
      (∀ c ∈ w₁, pyIsSpace c = true) → (∀ c ∈ w₂, pyIsSpace c = true) →
      (∀ c ∈ w₃, pyIsSpace c = true) →
      pyLowerL lvl = "level".data → digitP d = true →
      parse_level_from_title
          ⟨xs ++ (w₁ ++ '-' :: (w₂ ++ (lvl ++ (w₃ ++ d :: rest))))⟩
        = (⟨xs⟩, d.toNat - 48))
    ∧ parse_level_from_title "Mexico - Level 2: Exercise Increased Caution"
        = ("Mexico", 2)
    ∧ (∀ title : String, tmatch titleToks title.data = none →
        parse_level_from_title title = (title, 0))
    ∧ parse_level_from_title "Mainland China, Hong Kong & Macau - See Summaries"
        = ("Mainland China, Hong Kong & Macau - See Summaries", 0) := by
  refine ⟨title_parser_shape, by decide, ?_, by decide⟩
  intro title h
  unfold parse_level_from_title
  rw [h]

/-- Witness for C8: the shape theorem applied at the hyphenated heading
`Guinea-Bissau - Level 3: ...`, at a case- and whitespace-variant separator,
and the unmatched branch at a plain heading. -/
theorem title_parser_spec_instance :
    parse_level_from_title
        ⟨"Guinea-Bissau".data ++ ([' '] ++ '-' :: ([' '] ++ ("Level".data
          ++ ([' '] ++ '3' :: ": Reconsider Travel".data))))⟩
      = (⟨"Guinea-Bissau".data⟩, '3'.toNat - 48)
    ∧ parse_level_from_title
        ⟨"Chad".data ++ ([] ++ '-' :: ([' ', ' '] ++ ("LEVEL".data
          ++ ([] ++ '4' :: ": Do Not Travel".data))))⟩
      = (⟨"Chad".data⟩, '4'.toNat - 48)
    ∧ parse_level_from_title "Nowhere" = ("Nowhere", 0) :=
  ⟨title_parser_spec.1 "Guinea-Bissau".data [' '] [' '] "Level".data [' ']
      '3' ": Reconsider Travel".data
      (by decide) (by decide) (by decide) (by decide) (by decide) (by decide)
      (by decide) (by decide) (by decide),
   title_parser_spec.1 "Chad".data [] [' ', ' '] "LEVEL".data []
      '4' ": Do Not Travel".data
      (by decide) (by decide) (by decide) (by decide) (by decide) (by decide)
      (by decide) (by decide) (by decide),
   title_parser_spec.2.2.1 "Nowhere" (by decide)⟩

/-- Witness for C7 at the Sinai-Peninsula fixture of the spec. -/
theorem regional_warning_wellformed_instance :
    ((⟨"Sinai Peninsula", 4, "terrorism"⟩ : RegionalWarning).level = 3
      ∨ (⟨"Sinai Peninsula", 4, "terrorism"⟩ : RegionalWarning).level = 4)
    ∧ 3 ≤ (⟨"Sinai Peninsula", 4, "terrorism"⟩ : RegionalWarning).region_name.length
    ∧ (⟨"Sinai Peninsula", 4, "terrorism"⟩ : RegionalWarning).region_name.length ≤ 200
    ∧ (∀ p ∈ skip_phrases, containsSub p.data
        (pyLowerL (⟨"Sinai Peninsula", 4, "terrorism"⟩ : RegionalWarning).region_name.data) = false)
    ∧ (∀ p ∈ vague_terms, containsSub p.data
        (pyLowerL (⟨"Sinai Peninsula", 4, "terrorism"⟩ : RegionalWarning).region_name.data) = false)
    ∧ containsSub "entire country".data
        (pyLowerL (⟨"Sinai Peninsula", 4, "terrorism"⟩ : RegionalWarning).region_name.data) = false :=
  regional_warning_wellformed
    "Do not travel to the Sinai Peninsula due to terrorism." 2
    ⟨"Sinai Peninsula", 4, "terrorism"⟩ (by decide)


